import Mathlib

/-!
# Verification of the jotta-osd chunked object storage layer

Shallow embedding of the chunked object storage layer of the `jotta` repository
(`jotta-osd/src/object/mod.rs`, `jotta-osd/src/object/meta.rs`,
`jotta-fs/src/range.rs`), together with proofs and refutations of the
specification's claims about it.

Modelling conventions:

* Bytes are `Nat`s, byte strings are `List Nat`.  Machine integers (`u64`)
  are `Nat` with wrapping arithmetic made explicit (`u64sub`, `% 2^64`)
  exactly where the Rust code can underflow or overflow.
* The chunk files of a single object are a `Store : Nat → Option (List Nat)`
  (chunk index ↦ file contents).  For a fixed object, the remote paths
  `<bucket>/<hex(object)>/<index>` are in bijection with the chunk indices,
  so the path-formatting code is not modelled.
* The remote filesystem (`Fs::file_to_bytes`, the effect of
  `allocate` + `upload_range`) is **not part of `src/`** in this snapshot of
  the repository (only its callers are), so those collaborators are modelled
  from the spec — see `honestReader` and the store update in `upload`.
* Async code is sequentialised.  In `upload_range`, chunk *generation* is
  inherently sequential (it drains one byte source) and touches only the
  chunk currently being generated, while the concurrent uploads
  (`try_buffer_unordered`) each touch only their own chunk file, whose index
  is strictly increasing; therefore the sequential store-passing semantics
  coincides with every interleaving on the success path, and the error path
  is only used here for claims about the metadata file, which no chunk
  upload touches.  `stream_range` uses `buffered`, which yields results in
  request order, so its sequential semantics is exact.
-/

namespace JottaOSD

/-- Chunk size `CHUNK_SIZE` (`jotta-osd/src/object/mod.rs`): `1 << 20` bytes. -/
def CHUNK_SIZE : Nat := 1 <<< 20

/-- Modulus of `u64` arithmetic. -/
def U64_MOD : Nat := 2 ^ 64

/-- Wrapping `u64` subtraction (`a - b` in release mode; in debug mode the
underflowing case panics instead — see the claims that depend on it). -/
def u64sub (a b : Nat) : Nat := if b ≤ a then a - b else a + U64_MOD - b

/-- Type `ClosedByteRange` (`jotta-fs/src/range.rs`): a closed byte range stored
as inclusive `start` plus `len`. -/
structure ClosedByteRange where
  start : Nat
  len : Nat
deriving Repr, DecidableEq

/-- Error `InvalidRangeError` has the single variant `Backwards`. -/
inductive InvalidRangeError where
  | Backwards
deriving Repr, DecidableEq

/-- Constructor `ClosedByteRange::try_from_bounds(first, last)`. -/
def ClosedByteRange.try_from_bounds (first last : Nat) :
    Except InvalidRangeError ClosedByteRange :=
  if first > last then .error .Backwards
  else .ok ⟨first, last - first + 1⟩

/-- Constructor `ClosedByteRange::new_to_including(end)`: `Self::new(0, end + 1)`. -/
def ClosedByteRange.new_to_including (e : Nat) : ClosedByteRange := ⟨0, e + 1⟩

/-- The inherent `ClosedByteRange::end()`: `start + len - 1` (callers only use
it on nonempty ranges, where it cannot underflow). -/
def ClosedByteRange.endIncl (r : ClosedByteRange) : Nat := r.start + r.len - 1

/-- The trait method `ByteRange::end()` for `ClosedByteRange`:
`self.len().map(|len| len + self.start() - 1)` in `u64` arithmetic, which
*underflows* for a zero-length range starting at 0 and yields `start - 1`
(i.e. a wrapped huge value for `start = 0`, and an end *before* the start
otherwise) for every zero-length range. -/
def ClosedByteRange.endTrait (r : ClosedByteRange) : Nat :=
  u64sub ((r.len + r.start) % U64_MOD) 1

/-- The error type relevant to the modelled layer (`jotta-fs/src/errors.rs` /
the `jotta` crate's error enum): missing remote file, unsatisfiable range,
incomplete upload, and an opaque family of other transport errors. -/
inductive Err where
  | NoSuchFileOrFolder
  | RangeNotSatisfiable
  | IncompleteUpload
  | other (code : Nat)
deriving Repr, DecidableEq

/-- Type `UploadRes` (`jotta-fs`): the remote's verdict for an upload. -/
inductive UploadRes where
  | Complete
  | Incomplete
deriving Repr, DecidableEq

/-- Result of running a modelled operation: success, a returned error, an
unrecovered Rust panic, or exhaustion of the step budget (used to model
non-terminating iterators). -/
inductive Outcome (α : Type) where
  | ok (a : α)
  | err (e : Err)
  | panicked
  | fuelOut
deriving Repr, DecidableEq

/-- The chunk files of one object: chunk index ↦ contents. -/
def Store : Type := Nat → Option (List Nat)

/-- A remote range-read capability: `(chunk index, start, inclusive end or
open)` ↦ bytes.  `Fs::file_to_bytes` is consumed but not defined in this
snapshot of the repository, so readers are abstract; `honestReader` below is
the spec-modelled instance. -/
def Reader : Type := Nat → Nat → Option Nat → Except Err (List Nat)

/-- Modelled from the spec: `RemoteFilesystem.readRange(path, byteRange) ->
bytes, fails NotFound | RangeNotSatisfiable | other` (§6).  `Fs::file_to_bytes`
itself is missing from `src/` (only called).  The transport is an HTTP `Range:
bytes=s-e` request, so a request on an existing file is served clamped to the
file's extent (empty if the start lies at or past the end), and a request on a
missing file fails with `NoSuchFileOrFolder`. -/
def honestReader (chunks : Store) : Reader := fun idx s e? =>
  match chunks idx with
  | none => .error .NoSuchFileOrFolder
  | some content =>
      match e? with
      | some e => .ok ((content.drop s).take (e + 1 - s))
      | none => .ok (content.drop s)

/-- Function `get_complete_chunk` (`jotta-osd/src/object/mod.rs`, lines 134–201),
over an abstract reader.  Returns the completed chunk buffer (or `none` when
nothing needs uploading) together with the unconsumed remainder of the byte
source.  The `BytesMut` buffer manipulation is translated step by step:

* head read `[0, cursor)` when `cursor != 0` (`?` propagates every error);
* `buf.resize(CHUNK_SIZE, 0)`;
* the read loop copies `n = min(file.len, CHUNK_SIZE - cursor)` source bytes
  into `buf[cursor..]`;
* `buf.truncate(cursor + n)`;
* empty buffer ⇒ no chunk; short buffer ⇒ speculative tail fetch where
  `NoSuchFileOrFolder` means an empty tail and any other error propagates. -/
def get_complete_chunk (reader : Reader) (cursor0 chunk_no : Nat)
    (file : List Nat) : Except Err (Option (List Nat) × List Nat) :=
  let headRes : Except Err (List Nat) :=
    if cursor0 ≠ 0 then reader chunk_no 0 (some (cursor0 - 1)) else .ok []
  match headRes with
  | .error e => .error e
  | .ok buf0 =>
      let buf1 := (buf0 ++ List.replicate (CHUNK_SIZE - buf0.length) 0).take CHUNK_SIZE
      let n := min file.length (CHUNK_SIZE - cursor0)
      let cursor := cursor0 + n
      let buf3 := (buf1.take cursor0 ++ file.take n ++ buf1.drop cursor).take cursor
      let rest := file.drop n
      if buf3.isEmpty then .ok (none, rest)
      else if buf3.length < CHUNK_SIZE then
        match reader chunk_no cursor none with
        | .ok tail => .ok (some (buf3 ++ tail), rest)
        | .error .NoSuchFileOrFolder => .ok (some buf3, rest)
        | .error e => .error e
      else .ok (some buf3, rest)

/-- The remote's responses to the two calls made by the chunk uploader:
`Fs::allocate` (chunk index, byte count) and `Fs::upload_range`
(chunk index, body). -/
structure UploadBehavior where
  alloc : Nat → Nat → Except Err Unit
  put : Nat → List Nat → Except Err UploadRes

/-- Function `upload` (`jotta-osd/src/object/mod.rs`, lines 99–132): allocate with
`ConflictHandler::CreateNewRevision`, upload the whole buffer, then
`assert!(matches!(res, UploadRes::Complete(_)))` — an Incomplete verdict is a
*panic*, not a returned error.  On success the remote's effect — modelled from
the spec: the remote's only native operation is "replace entire file with `N`
bytes + checksum" (§3) — replaces the chunk file's contents, and the returned
byte count is the buffer length.  The MD5 checksum is computed but only
consumed remotely; it is not modelled. -/
def upload (beh : UploadBehavior) (chunks : Store) (index : Nat)
    (body : List Nat) : Store × Outcome Nat :=
  let size := body.length
  match beh.alloc index size with
  | .error e => (chunks, .err e)
  | .ok _ =>
      match beh.put index body with
      | .error e => (chunks, .err e)
      | .ok res =>
          let chunks' : Store := fun i => if i = index then some body else chunks i
          match res with
          | .Complete => (chunks', .ok size)
          | .Incomplete => (chunks', .panicked)

/-- The honest remote: allocation and upload always succeed completely. -/
def honestB : UploadBehavior where
  alloc := fun _ _ => .ok ()
  put := fun _ _ => .ok .Complete

/-- A remote that accepts the allocation but reports every upload as
incomplete (used to exercise the `assert!` in `upload`). -/
def incompleteB : UploadBehavior where
  alloc := fun _ _ => .ok ()
  put := fun _ _ => .ok .Incomplete

/-- A remote that accepts the allocation but fails every upload with an
opaque transport error. -/
def failingB : UploadBehavior where
  alloc := fun _ _ => .ok ()
  put := fun _ _ => .error (.other 7)

/-- A reader whose every range read fails with "no such file or folder". -/
def readerHeadMissing : Reader := fun _ _ _ => .error .NoSuchFileOrFolder

/-- A reader that serves bounded (head) reads but reports "no such file or
folder" for the open-ended (tail) read. -/
def readerTailMissing : Reader := fun _ _ e? =>
  match e? with
  | some _ => .ok [7]
  | none => .error .NoSuchFileOrFolder

/-- A reader that serves bounded (head) reads but fails the open-ended
(tail) read with an opaque transport error. -/
def readerTailBroken : Reader := fun _ _ e? =>
  match e? with
  | some _ => .ok [7]
  | none => .error (.other 3)

/-- The chunk loop of `upload_range` (`jotta-osd/src/object/mod.rs`,
lines 216–240): `try_unfold` generates `(chunk_no, buffer)` pairs with
`get_complete_chunk`, each buffer is uploaded, and the uploaded byte counts
are summed.  `chunk_no: u32 = (pos / CHUNK_SIZE).try_into().unwrap()` panics
once the chunk index no longer fits `u32`.  The position advances to the next
chunk boundary `CHUNK_SIZE * (chunk_no + 1)` after every chunk.  The threaded
store is returned in every outcome. -/
def uploadChunksLoop (beh : UploadBehavior) :
    Nat → Store → Nat → List Nat → Store × Outcome Nat
  | 0, st, _, _ => (st, .fuelOut)
  | fuel + 1, st, pos, file =>
      if 2 ^ 32 ≤ pos / CHUNK_SIZE then (st, .panicked)
      else
        match get_complete_chunk (honestReader st) (pos % CHUNK_SIZE)
            (pos / CHUNK_SIZE) file with
        | .error e => (st, .err e)
        | .ok (none, _) => (st, .ok 0)
        | .ok (some buf, rest) =>
            match upload beh st (pos / CHUNK_SIZE) buf with
            | (st', .ok n) =>
                match uploadChunksLoop beh fuel st'
                    (CHUNK_SIZE * (pos / CHUNK_SIZE + 1)) rest with
                | (stF, .ok total) => (stF, .ok (n + total))
                | other => other
            | other => other

/-- Record `Meta` (`jotta-osd/src/object/meta.rs`): object metadata.  Timestamps are
abstract instants (`Nat`); `ContentType`/`CacheControl` are their string
representations. -/
structure Meta where
  size : Nat
  created : Nat
  updated : Nat
  content_type : String
  cache_control : String
deriving Repr, DecidableEq

/-- Type `Patch` (`jotta-osd/src/object/meta.rs`). -/
structure Patch where
  content_type : Option String
  cache_control : Option String
deriving Repr, DecidableEq

/-- Default patch `Patch::default()`: both fields absent. -/
def Patch.default : Patch := ⟨none, none⟩

/-- Method `Patch::is_empty`: `*self == Self::default()`. -/
def Patch.is_empty (p : Patch) : Bool := p = Patch.default

/-- Method `Meta::patch`: overwrite the fields present in the patch. -/
def Meta.applyPatch (m : Meta) (p : Patch) : Meta :=
  { m with
    content_type := p.content_type.getD m.content_type
    cache_control := p.cache_control.getD m.cache_control }

/-- Function `meta::get`: read and decode the object's `meta` file.  The metadata store
is modelled as the decoded record (`Option Meta`); the decode-failure path of
`rmp_serde::from_slice` is outside the scope of the claims. -/
def metaGet (ms : Option Meta) : Except Err Meta :=
  match ms with
  | none => .error .NoSuchFileOrFolder
  | some m => .ok m

/-- Function `meta::patch` (`jotta-osd/src/object/meta.rs`, lines 174–198): fetch the
metadata, and only if the patch is nonempty apply it, refresh `updated` and
persist with `ConflictHandler::CreateNewRevision` (`set_raw` modelled as an
always-successful store of the record).  Returns the (possibly patched)
metadata and the resulting metadata store. -/
def meta_patch (ms : Option Meta) (p : Patch) (now : Nat) :
    Except Err Meta × Option Meta :=
  match metaGet ms with
  | .error e => (.error e, ms)
  | .ok m =>
      if ¬ p.is_empty then
        let m' := { m.applyPatch p with updated := now }
        (.ok m', some m')
      else (.ok m, ms)

/-- Function `upload_range` (`jotta-osd/src/object/mod.rs`, lines 206–264): run the
chunk loop from `offset`, then — only on success — fetch the metadata, set
`size := max(old size, bytes_uploaded + offset)` and `updated := now`, persist
it (`set_raw`, `CreateNewRevision`, modelled always-successful) and return it.
Result: (returned outcome, final chunk store, final metadata store). -/
def upload_range (beh : UploadBehavior) (fuel : Nat) (chunks : Store)
    (ms : Option Meta) (offset : Nat) (file : List Nat) (now : Nat) :
    Outcome Meta × Store × Option Meta :=
  match uploadChunksLoop beh fuel chunks offset file with
  | (chunks', .ok bytes_uploaded) =>
      match ms with
      | none => (.err .NoSuchFileOrFolder, chunks', ms)
      | some m0 =>
          let m := { m0 with size := max m0.size (bytes_uploaded + offset),
                             updated := now }
          (.ok m, chunks', some m)
  | (chunks', .err e) => (.err e, chunks', ms)
  | (chunks', .panicked) => (.panicked, chunks', ms)
  | (chunks', .fuelOut) => (.fuelOut, chunks', ms)

/-- One step of the `iter::from_fn` closure in `aligned_chunked_byte_range`
(`jotta-osd/src/object/mod.rs`, lines 266–288). -/
inductive StepRes where
  | done
  | panicked
  | yield (chunkNo : Nat) (chunk : ClosedByteRange) (nextPos : Nat)
deriving Repr, DecidableEq

/-- The closure body of `aligned_chunked_byte_range`, for a range with start
already consumed into `pos` and trait-level inclusive end `rend` (`none` for
an open range, standing for `u64::MAX` via `unwrap_or`):

* `chunk_no = (pos / CHUNK_SIZE) as u32` (a wrapping cast, hence `% 2^32`);
* `chunk_start = pos % CHUNK_SIZE`;
* `chunk_end = (end.unwrap_or(u64::MAX) - pos).min(CHUNK_SIZE)` with wrapping
  `u64` subtraction;
* stop when `chunk_end == 0`; otherwise
  `ClosedByteRange::try_from_bounds(chunk_start, chunk_end).unwrap()` —
  the `unwrap` panics when `chunk_start > chunk_end` — and
  `pos += chunk_end - chunk_start`. -/
def alignedStep (rend : Option Nat) (pos : Nat) : StepRes :=
  let chunk_no := pos / CHUNK_SIZE % 2 ^ 32
  let chunk_start := pos % CHUNK_SIZE
  let chunk_end := min (u64sub (rend.getD (U64_MOD - 1)) pos) CHUNK_SIZE
  if chunk_end = 0 then .done
  else
    match ClosedByteRange.try_from_bounds chunk_start chunk_end with
    | .error _ => .panicked
    | .ok chunk => .yield chunk_no chunk (pos + (chunk_end - chunk_start))

/-- How a run of the plan iterator ended. -/
inductive PlanTail where
  | finished
  | panicked
  | fuelOut
deriving Repr, DecidableEq

/-- Drive `alignedStep` for at most `fuel` items, collecting the yielded
`(chunk index, sub-range)` pairs. -/
def alignedRun (rend : Option Nat) :
    Nat → Nat → List (Nat × ClosedByteRange) × PlanTail
  | 0, _ => ([], .fuelOut)
  | fuel + 1, pos =>
      match alignedStep rend pos with
      | .done => ([], .finished)
      | .panicked => ([], .panicked)
      | .yield cno c p' =>
          let t := alignedRun rend fuel p'
          ((cno, c) :: t.1, t.2)

/-- Function `aligned_chunked_byte_range` applied to a `ClosedByteRange` (as in
`stream_range`): iterate from `range.start()` with the trait-level end. -/
def alignedClosed (r : ClosedByteRange) (fuel : Nat) :
    List (Nat × ClosedByteRange) × PlanTail :=
  alignedRun (some r.endTrait) fuel r.start

/-- The body of `stream_range` (`jotta-osd/src/object/mod.rs`, lines
301–330), sequentialised: walk the plan, issue `file_to_bytes` for each
`(chunk index, sub-range)` pair, and concatenate the results in request order
(`buffered` preserves order).  The first read error ends the stream with that
error; a plan panic or an exhausted budget is reported as such. -/
def streamGo (chunks : Store) (rend : Option Nat) :
    Nat → Nat → Outcome (List Nat)
  | 0, _ => .fuelOut
  | fuel + 1, pos =>
      match alignedStep rend pos with
      | .done => .ok []
      | .panicked => .panicked
      | .yield cno c p' =>
          match honestReader chunks cno c.start (some c.endIncl) with
          | .error e => .err e
          | .ok bytes =>
              match streamGo chunks rend fuel p' with
              | .ok more => .ok (bytes ++ more)
              | other => other

/-- Function `stream_range` on a closed range: all bytes of the stream, flattened. -/
def streamBytes (chunks : Store) (r : ClosedByteRange) (fuel : Nat) :
    Outcome (List Nat) :=
  streamGo chunks (some r.endTrait) fuel r.start

/-- The chunk store that holds exactly the logical content `σ`: chunk `i`
holds bytes `[i·CHUNK_SIZE, min((i+1)·CHUNK_SIZE, |σ|))` and exists iff that
span is nonempty.  This is the store produced by uploading `σ` at offset 0
into a fresh object. -/
def sliceStore (σ : List Nat) : Store := fun i =>
  if σ.length ≤ i * CHUNK_SIZE then none
  else some ((σ.drop (i * CHUNK_SIZE)).take CHUNK_SIZE)

/-- Logical effect of writing `ws` at offset `o` into content `σ` (for
`o ≤ |σ|`): positions `[o, o + |ws|)` replaced, everything else kept. -/
def overwriteAt (σ : List Nat) (o : Nat) (ws : List Nat) : List Nat :=
  σ.take o ++ ws ++ σ.drop (o + ws.length)

/-- The part of a slice store from chunk `c` on, described by the content
`δ` that starts at byte `c * CHUNK_SIZE`. -/
def tailStore (c : Nat) (δ : List Nat) : Store := fun i =>
  if δ.length ≤ (i - c) * CHUNK_SIZE then none
  else some ((δ.drop ((i - c) * CHUNK_SIZE)).take CHUNK_SIZE)

theorem CHUNK_SIZE_pos : 0 < CHUNK_SIZE := by decide

theorem CHUNK_SIZE_eq : CHUNK_SIZE = 2 ^ 20 := by decide

theorem u64sub_of_le {a b : Nat} (h : b ≤ a) : u64sub a b = a - b := by
  simp [u64sub, h]

theorem sliceStore_eq_tailStore (σ : List Nat) (c i : Nat) (h : c ≤ i) :
    sliceStore σ i = tailStore c (σ.drop (c * CHUNK_SIZE)) i := by
  have hmul : c * CHUNK_SIZE + (i - c) * CHUNK_SIZE = i * CHUNK_SIZE := by
    rw [← Nat.add_mul]
    congr 1
    omega
  simp only [sliceStore, tailStore, List.length_drop, List.drop_drop, hmul]
  by_cases hcase : σ.length ≤ i * CHUNK_SIZE
  · rw [if_pos hcase, if_pos (by omega)]
  · rw [if_neg hcase, if_neg (by omega)]

theorem tailStore_succ (δ : List Nat) (c i : Nat) (h : c + 1 ≤ i) :
    tailStore c δ i = tailStore (c + 1) (δ.drop CHUNK_SIZE) i := by
  have hm : CHUNK_SIZE + (i - (c + 1)) * CHUNK_SIZE = (i - c) * CHUNK_SIZE := by
    have h1 : i - c = (i - (c + 1)) + 1 := by omega
    rw [h1, Nat.add_mul, Nat.one_mul, Nat.add_comm]
  simp only [tailStore, List.length_drop, List.drop_drop, hm]
  by_cases hcase : δ.length ≤ (i - c) * CHUNK_SIZE
  · rw [if_pos hcase, if_pos (by omega)]
  · rw [if_neg hcase, if_neg (by omega)]

/-- Reading chunk `c` of the store `tailStore c δ`, as an option. -/
theorem tailStore_self (δ : List Nat) (c : Nat) :
    tailStore c δ c = if δ.length = 0 then none else some (δ.take CHUNK_SIZE) := by
  simp only [tailStore, Nat.sub_self, Nat.zero_mul, List.drop_zero, Nat.le_zero]

/-- Evaluation of the body of `get_complete_chunk` once the head read is
known to return `hd` with exactly `cursor0` bytes (`hd = []` when
`cursor0 = 0`): the buffer bookkeeping collapses to `hd ++ file.take n`. -/
theorem gcc_eval (reader : Reader) (c r : Nat) (file hd : List Nat)
    (hhead : (if r ≠ 0 then reader c 0 (some (r - 1)) else .ok []) = .ok hd)
    (hlen : hd.length = r) (hr : r ≤ CHUNK_SIZE) :
    get_complete_chunk reader r c file =
      (let n := min file.length (CHUNK_SIZE - r)
       let buf3 := hd ++ file.take n
       if buf3.isEmpty then (.ok (none, file.drop n) : Except Err _)
       else if r + n < CHUNK_SIZE then
         match reader c (r + n) none with
         | .ok tail => .ok (some (buf3 ++ tail), file.drop n)
         | .error .NoSuchFileOrFolder => .ok (some buf3, file.drop n)
         | .error e => .error e
       else .ok (some buf3, file.drop n)) := by
  simp only [get_complete_chunk, hhead]
  set n := min file.length (CHUNK_SIZE - r) with hn
  have hnle : n ≤ file.length := by omega
  have hnr : r + n ≤ CHUNK_SIZE := by omega
  have hftn : (file.take n).length = n := by simp [hnle]
  have hbuf1 : (hd ++ List.replicate (CHUNK_SIZE - hd.length) 0).take CHUNK_SIZE
      = hd ++ List.replicate (CHUNK_SIZE - r) 0 := by
    rw [hlen, List.take_of_length_le]
    simp [hlen]
    omega
  rw [hbuf1]
  have htkr : (hd ++ List.replicate (CHUNK_SIZE - r) 0).take r = hd :=
    List.take_left' hlen
  rw [htkr]
  have hbuf3 : (hd ++ file.take n ++
      (hd ++ List.replicate (CHUNK_SIZE - r) 0).drop (r + n)).take (r + n)
      = hd ++ file.take n := by
    rw [List.append_assoc, List.take_append_eq_append_take,
      List.take_of_length_le (by omega), hlen,
      List.take_append_eq_append_take, List.take_of_length_le (by omega),
      hftn]
    simp
  rw [hbuf3]
  simp only [List.length_append, hlen, hftn]

/-- Evaluation of `get_complete_chunk` with zero cursor and empty source:
nothing to upload. -/
theorem gcc_zero_nil (reader : Reader) (c : Nat) :
    get_complete_chunk reader 0 c [] = .ok (none, []) := rfl

/-- Evaluation of `get_complete_chunk` with zero cursor and nonempty source:
take up to a chunk's worth of source bytes; if that leaves the buffer short,
splice the existing chunk's tail (empty when the chunk is missing). -/
theorem gcc_zero (st : Store) (c : Nat) (file : List Nat) (hne : file ≠ []) :
    get_complete_chunk (honestReader st) 0 c file =
      if file.length < CHUNK_SIZE then
        .ok (some (file ++ ((st c).getD []).drop file.length), [])
      else
        .ok (some (file.take CHUNK_SIZE), file.drop CHUNK_SIZE) := by
  rw [gcc_eval (honestReader st) c 0 file [] (by simp) rfl (by omega)]
  simp only [Nat.sub_zero, Nat.zero_add, List.nil_append]
  set n := min file.length CHUNK_SIZE with hn
  have hnle : n ≤ file.length := by omega
  have hftn : (file.take n).length = n := by simp [hnle]
  have hne' : ¬ (file.take n).isEmpty = true := by
    have hn0 : n ≠ 0 := by
      have := List.length_pos.mpr hne
      have : 0 < CHUNK_SIZE := CHUNK_SIZE_pos
      omega
    simp only [List.isEmpty_iff, ← List.length_eq_zero, hftn]
    exact hn0
  simp only [hne', if_false, Bool.false_eq_true, hftn]
  by_cases hlt : file.length < CHUNK_SIZE
  · have hnf : n = file.length := by omega
    rw [if_pos hlt, if_pos (by omega), hnf, List.take_length, List.drop_length]
    cases hc : st c with
    | none => simp [honestReader, hc]
    | some ct => simp [honestReader, hc]
  · have hnf : n = CHUNK_SIZE := by omega
    rw [if_neg hlt, if_neg (by omega), hnf]

/-- Evaluation of `get_complete_chunk` with nonzero cursor when the chunk is
missing: the head read fails fatally. -/
theorem gcc_pos_missing (st : Store) (c r : Nat) (file : List Nat)
    (hc : st c = none) (hr : r ≠ 0) :
    get_complete_chunk (honestReader st) r c file = .error .NoSuchFileOrFolder := by
  simp [get_complete_chunk, if_pos hr, honestReader, hc]

/-- Evaluation of `get_complete_chunk` with nonzero cursor on an existing
chunk holding `ct` with `r ≤ |ct|`: head bytes `ct.take r`, then source
bytes, then (iff the buffer stays short) the tail `ct.drop (r + n)`. -/
theorem gcc_pos (st : Store) (c r : Nat) (file ct : List Nat)
    (hc : st c = some ct) (hr1 : r ≠ 0) (hr2 : r < CHUNK_SIZE)
    (hrc : r ≤ ct.length) :
    get_complete_chunk (honestReader st) r c file =
      if r + min file.length (CHUNK_SIZE - r) < CHUNK_SIZE then
        .ok (some (ct.take r ++ file.take (min file.length (CHUNK_SIZE - r)) ++
              ct.drop (r + min file.length (CHUNK_SIZE - r))),
             file.drop (min file.length (CHUNK_SIZE - r)))
      else
        .ok (some (ct.take r ++ file.take (min file.length (CHUNK_SIZE - r))),
             file.drop (min file.length (CHUNK_SIZE - r))) := by
  have hhead : (if r ≠ 0 then honestReader st c 0 (some (r - 1)) else .ok [])
      = .ok (ct.take r) := by
    have h1 : r - 1 + 1 - 0 = r := by omega
    simp [if_pos hr1, honestReader, hc, h1]
  rw [gcc_eval (honestReader st) c r file (ct.take r) hhead (by simp [hrc])
    (by omega)]
  set n := min file.length (CHUNK_SIZE - r) with hn
  have hnle : n ≤ file.length := by omega
  have hlen3 : (ct.take r ++ file.take n).length = r + n := by
    simp [hrc, hnle]
  have hne3 : ¬ (ct.take r ++ file.take n).isEmpty = true := by
    simp only [List.isEmpty_iff, ← List.length_eq_zero, hlen3]
    omega
  simp only [hne3, if_false, Bool.false_eq_true]
  by_cases hshort : r + n < CHUNK_SIZE
  · have htail : honestReader st c (r + n) none = .ok (ct.drop (r + n)) := by
      simp [honestReader, hc]
    rw [if_pos hshort, htail, if_pos hshort]
  · rw [if_neg hshort, if_neg hshort]

/-- Evaluation of the chunk uploader against the honest remote. -/
theorem upload_honestB (st : Store) (c : Nat) (buf : List Nat) :
    upload honestB st c buf =
      (fun i => if i = c then some buf else st i, .ok buf.length) := rfl

/-- One-step unfolding of the chunk-upload loop. -/
theorem uploadChunksLoop_succ (beh : UploadBehavior) (fuel : Nat) (st : Store)
    (pos : Nat) (file : List Nat) :
    uploadChunksLoop beh (fuel + 1) st pos file =
      if 2 ^ 32 ≤ pos / CHUNK_SIZE then (st, .panicked)
      else
        match get_complete_chunk (honestReader st) (pos % CHUNK_SIZE)
            (pos / CHUNK_SIZE) file with
        | .error e => (st, .err e)
        | .ok (none, _) => (st, .ok 0)
        | .ok (some buf, rest) =>
            match upload beh st (pos / CHUNK_SIZE) buf with
            | (st', .ok n) =>
                match uploadChunksLoop beh fuel st'
                    (CHUNK_SIZE * (pos / CHUNK_SIZE + 1)) rest with
                | (stF, .ok total) => (stF, .ok (n + total))
                | other => other
            | other => other := rfl

/-- Terminal step of the honest chunk-upload loop: aligned position, empty
source. -/
theorem uploadChunksLoop_nil_honest (fuel : Nat) (st : Store) (pos cn : Nat)
    (hdiv : pos / CHUNK_SIZE = cn) (hguard : ¬ 2 ^ 32 ≤ cn)
    (hmod : pos % CHUNK_SIZE = 0) :
    uploadChunksLoop honestB (fuel + 1) st pos [] = (st, .ok 0) := by
  subst hdiv
  simp only [uploadChunksLoop_succ, if_neg hguard, hmod, gcc_zero_nil]

/-- Composite step of the honest chunk-upload loop: the generator yields a
chunk, the honest remote stores it fully, and the loop continues on the rest
with the recursion's known result. -/
theorem uploadChunksLoop_yield_honest (fuel : Nat) (st : Store) (pos cn : Nat)
    (file buf rest' : List Nat) (stF : Store) (b : Nat)
    (hdiv : pos / CHUNK_SIZE = cn) (hguard : ¬ 2 ^ 32 ≤ cn)
    (hgcc : get_complete_chunk (honestReader st) (pos % CHUNK_SIZE) cn file
      = .ok (some buf, rest'))
    (hrec : uploadChunksLoop honestB fuel
        (fun i => if i = cn then some buf else st i)
        (CHUNK_SIZE * (cn + 1)) rest' = (stF, .ok b)) :
    uploadChunksLoop honestB (fuel + 1) st pos file
      = (stF, .ok (buf.length + b)) := by
  subst hdiv
  simp only [uploadChunksLoop_succ, if_neg hguard, hgcc, upload_honestB, hrec]

/-- Main invariant of the chunk-upload loop, aligned phase: starting at a
chunk boundary `c * CHUNK_SIZE` with source `rest`, against a store whose
chunks from `c` on hold the content `τ` (viewed from byte `c * CHUNK_SIZE`),
the loop succeeds and afterwards the chunks from `c` on hold
`rest ++ τ.drop rest.length` — the write replaces the first `rest.length`
bytes and preserves the remainder of the old tail.  Chunks below `c` are
untouched. -/
theorem uploadChunksLoop_aligned :
    ∀ (fuel : Nat) (rest τ : List Nat) (c : Nat) (st : Store),
      (∀ i, c ≤ i → st i = tailStore c τ i) →
      rest.length + 2 ≤ fuel →
      c * CHUNK_SIZE + rest.length + 2 * CHUNK_SIZE ≤ 2 ^ 52 →
      ∃ b stF,
        uploadChunksLoop honestB fuel st (c * CHUNK_SIZE) rest = (stF, .ok b) ∧
        (∀ i, i < c → stF i = st i) ∧
        (∀ i, c ≤ i → stF i = tailStore c (rest ++ τ.drop rest.length) i) := by
  intro fuel
  induction fuel with
  | zero =>
      intro rest τ c st _ hfuel _
      omega
  | succ f ih =>
      intro rest τ c st hst hfuel hbound
      have hCpos : 0 < CHUNK_SIZE := CHUNK_SIZE_pos
      have hdiv : c * CHUNK_SIZE / CHUNK_SIZE = c := by
        rw [Nat.mul_div_assoc c (dvd_refl CHUNK_SIZE), Nat.div_self hCpos,
          Nat.mul_one]
      have hmod : c * CHUNK_SIZE % CHUNK_SIZE = 0 := Nat.mul_mod_left c CHUNK_SIZE
      have hc32 : c < 2 ^ 32 := by
        by_contra hcon
        push_neg at hcon
        have h1 : 2 ^ 32 * CHUNK_SIZE ≤ c * CHUNK_SIZE :=
          Nat.mul_le_mul_right _ hcon
        rw [CHUNK_SIZE_eq] at h1 hbound
        norm_num at h1 hbound
        omega
      have hguard : ¬ 2 ^ 32 ≤ c := by omega
      rcases hrest : rest with _ | ⟨x, xs⟩
      · -- rest = []: the generator immediately reports "no chunk".
        refine ⟨0, st, ?_, fun i _ => rfl, ?_⟩
        · exact uploadChunksLoop_nil_honest f st _ c hdiv hguard hmod
        · intro i hi
          simpa using hst i hi
      · -- rest = x :: xs
        subst hrest
        have hne : x :: xs ≠ ([] : List Nat) := by simp
        have hguard' : ¬ 2 ^ 32 ≤ c + 1 := by
          by_contra hcon
          have h1 : 2 ^ 32 * CHUNK_SIZE ≤ (c + 1) * CHUNK_SIZE :=
            Nat.mul_le_mul_right _ hcon
          rw [CHUNK_SIZE_eq] at h1 hbound
          rw [Nat.add_mul, Nat.one_mul] at h1
          norm_num at h1 hbound
          omega
        have hdiv' : CHUNK_SIZE * (c + 1) / CHUNK_SIZE = c + 1 := by
          rw [Nat.mul_comm, Nat.mul_div_assoc _ (dvd_refl CHUNK_SIZE),
            Nat.div_self hCpos, Nat.mul_one]
        have hmod' : CHUNK_SIZE * (c + 1) % CHUNK_SIZE = 0 :=
          Nat.mul_mod_right CHUNK_SIZE (c + 1)
        by_cases hlt : (x :: xs).length < CHUNK_SIZE
        · -- short source: single (final) chunk, with speculative tail splice
          have hgd : (st c).getD [] = τ.take CHUNK_SIZE := by
            rw [hst c (Nat.le_refl c), tailStore_self]
            by_cases hτ : τ.length = 0
            · rw [if_pos hτ]
              simp [List.length_eq_zero.mp hτ]
            · rw [if_neg hτ]
              rfl
          have hgcc := gcc_zero st c (x :: xs) hne
          rw [if_pos hlt, hgd] at hgcc
          set buf := x :: xs ++ (τ.take CHUNK_SIZE).drop (x :: xs).length with hbuf
          obtain ⟨f', rfl⟩ : ∃ f', f = f' + 1 := by
            rcases f with _ | f'
            · simp only [List.length_cons] at hfuel
              omega
            · exact ⟨f', rfl⟩
          have hgcc' : get_complete_chunk (honestReader st)
              (c * CHUNK_SIZE % CHUNK_SIZE) c (x :: xs) = .ok (some buf, []) := by
            rw [hmod]
            exact hgcc
          have hrec : uploadChunksLoop honestB (f' + 1)
              (fun i => if i = c then some buf else st i)
              (CHUNK_SIZE * (c + 1)) [] =
              ((fun i => if i = c then some buf else st i), .ok 0) :=
            uploadChunksLoop_nil_honest f' _ _ (c + 1) hdiv' hguard' hmod'
          refine ⟨buf.length + 0, fun i => if i = c then some buf else st i,
            ?_, ?_, ?_⟩
          · exact uploadChunksLoop_yield_honest (f' + 1) st _ c (x :: xs) buf []
              _ 0 hdiv hguard hgcc' hrec
          · intro i hi
            simp [Nat.ne_of_lt hi]
          · intro i hi
            rcases Nat.eq_or_lt_of_le hi with heq | hgt
            · subst heq
              show (if c = c then some buf else st c)
                  = tailStore c (x :: xs ++ τ.drop (x :: xs).length) c
              rw [if_pos rfl, tailStore_self,
                if_neg (by simp : ¬ (x :: xs ++ τ.drop (x :: xs).length).length = 0),
                hbuf, List.take_append_eq_append_take,
                List.take_of_length_le (Nat.le_of_lt hlt), List.drop_take]
            · have hne' : i ≠ c := by omega
              have hlist : (x :: xs ++ τ.drop (x :: xs).length).drop CHUNK_SIZE
                  = τ.drop CHUNK_SIZE := by
                rw [List.drop_append_eq_append_drop,
                  List.drop_eq_nil_of_le (Nat.le_of_lt hlt), List.nil_append,
                  List.drop_drop]
                have h1 : (x :: xs).length + (CHUNK_SIZE - (x :: xs).length)
                    = CHUNK_SIZE := by omega
                rw [h1]
              simp only [if_neg hne']
              rw [hst i (Nat.le_of_lt hgt),
                tailStore_succ τ c i hgt,
                tailStore_succ (x :: xs ++ τ.drop (x :: xs).length) c i hgt,
                hlist]
        · -- full chunk: upload `CHUNK_SIZE` source bytes and continue
          push_neg at hlt
          have hgcc := gcc_zero st c (x :: xs) hne
          rw [if_neg (by omega)] at hgcc
          have hst' : ∀ i, c + 1 ≤ i →
              (fun j => if j = c then some ((x :: xs).take CHUNK_SIZE) else st j) i
                = tailStore (c + 1) (τ.drop CHUNK_SIZE) i := by
            intro i hi
            have hne' : i ≠ c := by omega
            simp only [if_neg hne']
            rw [hst i (by omega), tailStore_succ τ c i hi]
          have hfuel' : ((x :: xs).drop CHUNK_SIZE).length + 2 ≤ f := by
            simp only [List.length_drop]
            simp only [List.length_cons] at hfuel
            simp only [List.length_cons]
            omega
          have hbound' : (c + 1) * CHUNK_SIZE + ((x :: xs).drop CHUNK_SIZE).length
              + 2 * CHUNK_SIZE ≤ 2 ^ 52 := by
            rw [Nat.add_mul, Nat.one_mul]
            simp only [List.length_drop]
            omega
          obtain ⟨b, stF, heq, hlow, hhigh⟩ :=
            ih ((x :: xs).drop CHUNK_SIZE) (τ.drop CHUNK_SIZE) (c + 1) _ hst' hfuel' hbound'
          rw [Nat.mul_comm (c + 1) CHUNK_SIZE] at heq
          have hgcc' : get_complete_chunk (honestReader st)
              (c * CHUNK_SIZE % CHUNK_SIZE) c (x :: xs)
              = .ok (some ((x :: xs).take CHUNK_SIZE), (x :: xs).drop CHUNK_SIZE) := by
            rw [hmod]
            exact hgcc
          refine ⟨((x :: xs).take CHUNK_SIZE).length + b, stF, ?_, ?_, ?_⟩
          · exact uploadChunksLoop_yield_honest f st _ c (x :: xs)
              ((x :: xs).take CHUNK_SIZE) ((x :: xs).drop CHUNK_SIZE) stF b
              hdiv hguard hgcc' heq
          · intro i hi
            rw [hlow i (by omega)]
            simp [Nat.ne_of_lt hi]
          · intro i hi
            rcases Nat.eq_or_lt_of_le hi with heqi | hgt
            · subst heqi
              have h1 : stF c = some ((x :: xs).take CHUNK_SIZE) := by
                rw [hlow c (by omega)]
                simp
              rw [h1, tailStore_self,
                if_neg (by simp : ¬ (x :: xs ++ τ.drop (x :: xs).length).length = 0),
                List.take_append_of_le_length hlt]
            · have hlist : (x :: xs).drop CHUNK_SIZE ++
                  (τ.drop CHUNK_SIZE).drop (((x :: xs).drop CHUNK_SIZE).length)
                  = (x :: xs ++ τ.drop (x :: xs).length).drop CHUNK_SIZE := by
                rw [List.length_drop, List.drop_drop, List.drop_append_eq_append_drop,
                  List.drop_drop]
                have h0 : CHUNK_SIZE - (x :: xs).length = 0 := by omega
                have h1 : CHUNK_SIZE + ((x :: xs).length - CHUNK_SIZE)
                    = (x :: xs).length + (CHUNK_SIZE - (x :: xs).length) := by omega
                rw [h1]
              rw [hhigh i hgt,
                tailStore_succ (x :: xs ++ τ.drop (x :: xs).length) c i hgt, hlist]

theorem overwriteAt_length (σ ws : List Nat) (o : Nat) (ho : o ≤ σ.length) :
    (overwriteAt σ o ws).length = max σ.length (o + ws.length) := by
  simp only [overwriteAt, List.length_append, List.length_take, List.length_drop]
  omega

theorem overwriteAt_take_low (σ ws : List Nat) (o : Nat) (ho : o ≤ σ.length) :
    (overwriteAt σ o ws).take o = σ.take o := by
  have h1 : (σ.take o).length = o := by
    simp only [List.length_take]
    omega
  simp only [overwriteAt]
  rw [List.take_append_of_le_length (by simp only [List.length_append, h1]; omega),
    List.take_append_of_le_length (by omega), List.take_take, Nat.min_self]

theorem overwriteAt_drop_high (σ ws : List Nat) (o x : Nat)
    (ho : o ≤ σ.length) (hx : o + ws.length ≤ x) :
    (overwriteAt σ o ws).drop x = σ.drop x := by
  have h1 : (σ.take o).length = o := by
    simp only [List.length_take]
    omega
  have hlen2 : (σ.take o ++ ws).length = o + ws.length := by
    simp only [List.length_append, h1]
  simp only [overwriteAt]
  rw [List.drop_append_eq_append_drop,
    List.drop_eq_nil_of_le (by rw [hlen2]; omega), List.nil_append, hlen2,
    List.drop_drop]
  by_cases hσ : σ.length ≤ x
  · rw [List.drop_eq_nil_of_le (by omega : σ.length ≤ o + ws.length + (x - (o + ws.length))),
      List.drop_eq_nil_of_le hσ]
  · congr 1
    omega

theorem overwriteAt_drop_low (σ ws : List Nat) (o x : Nat)
    (ho : o ≤ σ.length) (hx : x ≤ o) :
    (overwriteAt σ o ws).drop x
      = ((σ.drop x).take (o - x) ++ ws) ++ σ.drop (o + ws.length) := by
  have h1 : (σ.take o).length = o := by
    simp only [List.length_take]
    omega
  have hlen2 : (σ.take o ++ ws).length = o + ws.length := by
    simp only [List.length_append, h1]
  simp only [overwriteAt]
  rw [List.drop_append_eq_append_drop, hlen2,
    Nat.sub_eq_zero_of_le (by omega), List.drop_zero,
    List.drop_append_eq_append_drop, h1,
    Nat.sub_eq_zero_of_le hx, List.drop_zero, List.drop_take]

theorem sliceStore_agree_low (σ σ' : List Nat) (m i : Nat)
    (htake : σ'.take m = σ.take m) (hm : m ≤ σ.length) (hm' : m ≤ σ'.length)
    (hi : (i + 1) * CHUNK_SIZE ≤ m) :
    sliceStore σ' i = sliceStore σ i := by
  have hCpos : 0 < CHUNK_SIZE := CHUNK_SIZE_pos
  have hiC : i * CHUNK_SIZE + CHUNK_SIZE ≤ m := by
    rw [Nat.add_mul, Nat.one_mul] at hi
    omega
  have key : ∀ (l : List Nat),
      ((l.take m).drop (i * CHUNK_SIZE)).take CHUNK_SIZE
        = (l.drop (i * CHUNK_SIZE)).take CHUNK_SIZE := by
    intro l
    rw [List.drop_take, List.take_take]
    congr 1
    omega
  simp only [sliceStore]
  rw [if_neg (by omega), if_neg (by omega), ← key σ, ← key σ', htake]

theorem sliceStore_overwrite_high (σ ws : List Nat) (o i : Nat)
    (ho : o ≤ σ.length) (hi : o + ws.length ≤ i * CHUNK_SIZE) :
    sliceStore (overwriteAt σ o ws) i = sliceStore σ i := by
  have hlen := overwriteAt_length σ ws o ho
  simp only [sliceStore, overwriteAt_drop_high σ ws o _ ho hi, hlen]
  by_cases hcase : σ.length ≤ i * CHUNK_SIZE
  · rw [if_pos (by omega), if_pos hcase]
  · rw [if_neg (by omega), if_neg hcase]

theorem chunkNo_lt_u32 (y : Nat) (hy : y + CHUNK_SIZE ≤ 2 ^ 52) :
    ¬ 2 ^ 32 ≤ y / CHUNK_SIZE := by
  intro hcon
  have h1 : 2 ^ 32 * CHUNK_SIZE ≤ y / CHUNK_SIZE * CHUNK_SIZE :=
    Nat.mul_le_mul_right _ hcon
  have h2 : y / CHUNK_SIZE * CHUNK_SIZE ≤ y := Nat.div_mul_le_self y CHUNK_SIZE
  rw [CHUNK_SIZE_eq] at h1 hy
  norm_num at h1 hy
  omega

theorem chunkNo_succ_lt_u32 (y : Nat) (hy : y + 2 * CHUNK_SIZE ≤ 2 ^ 52) :
    ¬ 2 ^ 32 ≤ y / CHUNK_SIZE + 1 := by
  intro hcon
  have h2 : y / CHUNK_SIZE * CHUNK_SIZE ≤ y := Nat.div_mul_le_self y CHUNK_SIZE
  have h1 : (2 ^ 32 - 1) * CHUNK_SIZE ≤ y / CHUNK_SIZE * CHUNK_SIZE :=
    Nat.mul_le_mul_right _ (by omega)
  rw [CHUNK_SIZE_eq] at h1 hy
  norm_num at h1 hy
  omega

/-- Full effect of the chunk loop of `upload_range` on a store holding
exactly the content `σ`: writing `ws` at byte offset `o ≤ |σ|` succeeds and
leaves the store holding exactly `overwriteAt σ o ws` — the partial-chunk
read-modify-write preserves every byte outside `[o, o + |ws|)`. -/
theorem uploadChunksLoop_sliceStore (σ ws : List Nat) (o fuel : Nat)
    (ho : o ≤ σ.length) (hfuel : ws.length + 3 ≤ fuel)
    (hbound : o + ws.length + 3 * CHUNK_SIZE ≤ 2 ^ 52) :
    ∃ b, uploadChunksLoop honestB fuel (sliceStore σ) o ws
        = (sliceStore (overwriteAt σ o ws), .ok b) := by
  have hCpos : 0 < CHUNK_SIZE := CHUNK_SIZE_pos
  have hdm' : o / CHUNK_SIZE * CHUNK_SIZE + o % CHUNK_SIZE = o := by
    rw [Nat.mul_comm]
    exact Nat.div_add_mod o CHUNK_SIZE
  have hcClow : o / CHUNK_SIZE * CHUNK_SIZE ≤ o := Nat.div_mul_le_self o CHUNK_SIZE
  have hωlen : (overwriteAt σ o ws).length = max σ.length (o + ws.length) :=
    overwriteAt_length σ ws o ho
  by_cases hr0 : o % CHUNK_SIZE = 0
  · -- the write starts on a chunk boundary
    have hoC : o / CHUNK_SIZE * CHUNK_SIZE = o := by omega
    obtain ⟨b, stF, heq, hlow, hhigh⟩ :=
      uploadChunksLoop_aligned fuel ws (σ.drop o) (o / CHUNK_SIZE) (sliceStore σ)
        (fun i hi => by rw [sliceStore_eq_tailStore σ _ i hi, hoC])
        (by omega) (by rw [hoC]; omega)
    rw [hoC] at heq
    refine ⟨b, ?_⟩
    rw [heq]
    congr 1
    funext i
    by_cases hic : i < o / CHUNK_SIZE
    · rw [hlow i hic]
      exact (sliceStore_agree_low σ (overwriteAt σ o ws) o i
        (overwriteAt_take_low σ ws o ho) ho (by omega)
        (le_trans (Nat.mul_le_mul_right _ hic) (le_of_eq hoC))).symm
    · push_neg at hic
      have hδ : (overwriteAt σ o ws).drop o = ws ++ σ.drop (o + ws.length) := by
        rw [overwriteAt_drop_low σ ws o o ho (Nat.le_refl o), Nat.sub_self,
          List.take_zero, List.nil_append]
      rw [hhigh i hic,
        sliceStore_eq_tailStore (overwriteAt σ o ws) (o / CHUNK_SIZE) i hic,
        hoC, hδ, List.drop_drop]
  · -- the write starts in the middle of chunk `o / CHUNK_SIZE`
    have hrlt : o % CHUNK_SIZE < CHUNK_SIZE := Nat.mod_lt o hCpos
    have hσc : ¬ σ.length ≤ o / CHUNK_SIZE * CHUNK_SIZE := by omega
    have hct : sliceStore σ (o / CHUNK_SIZE)
        = some ((σ.drop (o / CHUNK_SIZE * CHUNK_SIZE)).take CHUNK_SIZE) := by
      simp only [sliceStore]
      rw [if_neg hσc]
    have hctlen : o % CHUNK_SIZE
        ≤ ((σ.drop (o / CHUNK_SIZE * CHUNK_SIZE)).take CHUNK_SIZE).length := by
      simp only [List.length_take, List.length_drop]
      omega
    have hgcc0 := gcc_pos (sliceStore σ) (o / CHUNK_SIZE) (o % CHUNK_SIZE) ws _
      hct hr0 hrlt hctlen
    have hguard : ¬ 2 ^ 32 ≤ o / CHUNK_SIZE := chunkNo_lt_u32 o (by omega)
    have hguard' : ¬ 2 ^ 32 ≤ o / CHUNK_SIZE + 1 := chunkNo_succ_lt_u32 o (by omega)
    have hωc : ¬ (overwriteAt σ o ws).length ≤ o / CHUNK_SIZE * CHUNK_SIZE := by
      omega
    -- head bytes of the first rewritten chunk
    have hA : ((σ.drop (o / CHUNK_SIZE * CHUNK_SIZE)).take CHUNK_SIZE).take (o % CHUNK_SIZE)
        = (σ.drop (o / CHUNK_SIZE * CHUNK_SIZE)).take (o - o / CHUNK_SIZE * CHUNK_SIZE) := by
      rw [List.take_take]
      congr 1
      omega
    have hAlen : ((σ.drop (o / CHUNK_SIZE * CHUNK_SIZE)).take
        (o - o / CHUNK_SIZE * CHUNK_SIZE)).length = o % CHUNK_SIZE := by
      simp only [List.length_take, List.length_drop]
      omega
    by_cases hshort : o % CHUNK_SIZE + min ws.length (CHUNK_SIZE - o % CHUNK_SIZE)
        < CHUNK_SIZE
    · -- single short chunk: the whole write fits strictly inside one chunk
      have hWlt : ws.length < CHUNK_SIZE - o % CHUNK_SIZE := by omega
      have hnW : min ws.length (CHUNK_SIZE - o % CHUNK_SIZE) = ws.length := by omega
      rw [if_pos (by omega), hnW, List.take_length, List.drop_length] at hgcc0
      obtain ⟨f, rfl⟩ : ∃ f, fuel = f + 1 + 1 := by
        rcases fuel with _ | _ | f
        · omega
        · omega
        · exact ⟨f, rfl⟩
      have hdiv' : CHUNK_SIZE * (o / CHUNK_SIZE + 1) / CHUNK_SIZE
          = o / CHUNK_SIZE + 1 := by
        rw [Nat.mul_comm, Nat.mul_div_assoc _ (dvd_refl CHUNK_SIZE),
          Nat.div_self hCpos, Nat.mul_one]
      have hmod' : CHUNK_SIZE * (o / CHUNK_SIZE + 1) % CHUNK_SIZE = 0 :=
        Nat.mul_mod_right CHUNK_SIZE (o / CHUNK_SIZE + 1)
      have hrec := uploadChunksLoop_nil_honest f
        (fun i => if i = o / CHUNK_SIZE then
          some (((σ.drop (o / CHUNK_SIZE * CHUNK_SIZE)).take CHUNK_SIZE).take (o % CHUNK_SIZE)
            ++ ws
            ++ ((σ.drop (o / CHUNK_SIZE * CHUNK_SIZE)).take CHUNK_SIZE).drop
                (o % CHUNK_SIZE + ws.length))
          else sliceStore σ i)
        (CHUNK_SIZE * (o / CHUNK_SIZE + 1)) (o / CHUNK_SIZE + 1) hdiv' hguard' hmod'
      have hmain := uploadChunksLoop_yield_honest (f + 1) (sliceStore σ) o
        (o / CHUNK_SIZE) ws _ [] _ 0 rfl hguard hgcc0 hrec
      refine ⟨(((σ.drop (o / CHUNK_SIZE * CHUNK_SIZE)).take CHUNK_SIZE).take (o % CHUNK_SIZE)
        ++ ws
        ++ ((σ.drop (o / CHUNK_SIZE * CHUNK_SIZE)).take CHUNK_SIZE).drop
            (o % CHUNK_SIZE + ws.length)).length + 0, ?_⟩
      rw [hmain]
      simp only [Prod.mk.injEq]
      refine ⟨funext fun i => ?_, trivial⟩
      rcases Nat.lt_trichotomy i (o / CHUNK_SIZE) with hic | hic | hic
      · rw [if_neg (by omega)]
        exact (sliceStore_agree_low σ (overwriteAt σ o ws) o i
          (overwriteAt_take_low σ ws o ho) ho (by omega)
          (le_trans (Nat.mul_le_mul_right _ hic) hcClow)).symm
      · subst hic
        rw [if_pos rfl]
        have hdropA : (overwriteAt σ o ws).drop (o / CHUNK_SIZE * CHUNK_SIZE)
            = ((σ.drop (o / CHUNK_SIZE * CHUNK_SIZE)).take
                (o - o / CHUNK_SIZE * CHUNK_SIZE) ++ ws)
              ++ σ.drop (o + ws.length) :=
          overwriteAt_drop_low σ ws o _ ho hcClow
        have hctdrop : ((σ.drop (o / CHUNK_SIZE * CHUNK_SIZE)).take CHUNK_SIZE).drop
              (o % CHUNK_SIZE + ws.length)
            = (σ.drop (o + ws.length)).take
                (CHUNK_SIZE - (o % CHUNK_SIZE + ws.length)) := by
          rw [List.drop_take, List.drop_drop]
          have hidx : o / CHUNK_SIZE * CHUNK_SIZE + (o % CHUNK_SIZE + ws.length)
              = o + ws.length := by omega
          rw [hidx]
        have hchunkS : (((σ.drop (o / CHUNK_SIZE * CHUNK_SIZE)).take
              (o - o / CHUNK_SIZE * CHUNK_SIZE) ++ ws)
              ++ σ.drop (o + ws.length)).take CHUNK_SIZE
            = ((σ.drop (o / CHUNK_SIZE * CHUNK_SIZE)).take CHUNK_SIZE).take (o % CHUNK_SIZE)
              ++ ws
              ++ ((σ.drop (o / CHUNK_SIZE * CHUNK_SIZE)).take CHUNK_SIZE).drop
                  (o % CHUNK_SIZE + ws.length) := by
          rw [List.take_append_eq_append_take,
            List.take_of_length_le (show ((σ.drop (o / CHUNK_SIZE * CHUNK_SIZE)).take
              (o - o / CHUNK_SIZE * CHUNK_SIZE) ++ ws).length ≤ CHUNK_SIZE from by
                rw [List.length_append, hAlen]; omega),
            show ((σ.drop (o / CHUNK_SIZE * CHUNK_SIZE)).take
              (o - o / CHUNK_SIZE * CHUNK_SIZE) ++ ws).length
              = o % CHUNK_SIZE + ws.length from by rw [List.length_append, hAlen],
            ← hA, hctdrop]
        simp only [sliceStore]
        rw [if_neg hωc, hdropA, hchunkS]
      · rw [if_neg (by omega)]
        exact (sliceStore_overwrite_high σ ws o i ho (by
          have h1 : (o / CHUNK_SIZE + 1) * CHUNK_SIZE ≤ i * CHUNK_SIZE :=
            Nat.mul_le_mul_right _ (by omega)
          rw [Nat.add_mul, Nat.one_mul] at h1
          omega)).symm
    · -- the write fills chunk `o / CHUNK_SIZE` up to its end and continues
      have hWge : CHUNK_SIZE - o % CHUNK_SIZE ≤ ws.length := by omega
      have hn : min ws.length (CHUNK_SIZE - o % CHUNK_SIZE)
          = CHUNK_SIZE - o % CHUNK_SIZE := by omega
      rw [if_neg (by omega), hn] at hgcc0
      obtain ⟨f, rfl⟩ : ∃ f, fuel = f + 1 := by
        rcases fuel with _ | f
        · omega
        · exact ⟨f, rfl⟩
      obtain ⟨b, stF, heq, hlow, hhigh⟩ :=
        uploadChunksLoop_aligned f (ws.drop (CHUNK_SIZE - o % CHUNK_SIZE))
          (σ.drop ((o / CHUNK_SIZE + 1) * CHUNK_SIZE)) (o / CHUNK_SIZE + 1)
          (fun i => if i = o / CHUNK_SIZE then
            some (((σ.drop (o / CHUNK_SIZE * CHUNK_SIZE)).take CHUNK_SIZE).take (o % CHUNK_SIZE)
              ++ ws.take (CHUNK_SIZE - o % CHUNK_SIZE))
            else sliceStore σ i)
          (fun i hi => by
            simp only [if_neg (by omega : i ≠ o / CHUNK_SIZE)]
            exact sliceStore_eq_tailStore σ (o / CHUNK_SIZE + 1) i hi)
          (by simp only [List.length_drop]; omega)
          (by
            rw [Nat.add_mul, Nat.one_mul]
            simp only [List.length_drop]
            omega)
      rw [Nat.mul_comm (o / CHUNK_SIZE + 1) CHUNK_SIZE] at heq
      have hmain := uploadChunksLoop_yield_honest f (sliceStore σ) o
        (o / CHUNK_SIZE) ws _ (ws.drop (CHUNK_SIZE - o % CHUNK_SIZE)) stF b
        rfl hguard hgcc0 heq
      refine ⟨(((σ.drop (o / CHUNK_SIZE * CHUNK_SIZE)).take CHUNK_SIZE).take (o % CHUNK_SIZE)
        ++ ws.take (CHUNK_SIZE - o % CHUNK_SIZE)).length + b, ?_⟩
      rw [hmain]
      simp only [Prod.mk.injEq]
      refine ⟨funext fun i => ?_, trivial⟩
      rcases Nat.lt_trichotomy i (o / CHUNK_SIZE) with hic | hic | hic
      · rw [hlow i (by omega)]
        rw [if_neg (by omega)]
        exact (sliceStore_agree_low σ (overwriteAt σ o ws) o i
          (overwriteAt_take_low σ ws o ho) ho (by omega)
          (le_trans (Nat.mul_le_mul_right _ hic) hcClow)).symm
      · subst hic
        rw [hlow (o / CHUNK_SIZE) (by omega), if_pos rfl]
        have hdropA : (overwriteAt σ o ws).drop (o / CHUNK_SIZE * CHUNK_SIZE)
            = ((σ.drop (o / CHUNK_SIZE * CHUNK_SIZE)).take
                (o - o / CHUNK_SIZE * CHUNK_SIZE) ++ ws)
              ++ σ.drop (o + ws.length) :=
          overwriteAt_drop_low σ ws o _ ho hcClow
        have hchunkF : (((σ.drop (o / CHUNK_SIZE * CHUNK_SIZE)).take
              (o - o / CHUNK_SIZE * CHUNK_SIZE) ++ ws)
              ++ σ.drop (o + ws.length)).take CHUNK_SIZE
            = ((σ.drop (o / CHUNK_SIZE * CHUNK_SIZE)).take CHUNK_SIZE).take (o % CHUNK_SIZE)
              ++ ws.take (CHUNK_SIZE - o % CHUNK_SIZE) := by
          rw [List.take_append_eq_append_take,
            show CHUNK_SIZE - ((σ.drop (o / CHUNK_SIZE * CHUNK_SIZE)).take
              (o - o / CHUNK_SIZE * CHUNK_SIZE) ++ ws).length = 0 from by
                rw [List.length_append, hAlen]; omega,
            List.take_zero, List.append_nil,
            List.take_append_eq_append_take,
            List.take_of_length_le (show ((σ.drop (o / CHUNK_SIZE * CHUNK_SIZE)).take
              (o - o / CHUNK_SIZE * CHUNK_SIZE)).length ≤ CHUNK_SIZE from by
                rw [hAlen]; omega),
            hAlen, ← hA]
        simp only [sliceStore]
        rw [if_neg hωc, hdropA, hchunkF]
      · rw [hhigh i hic]
        rw [sliceStore_eq_tailStore (overwriteAt σ o ws) (o / CHUNK_SIZE + 1) i hic]
        have hτδ : (σ.drop ((o / CHUNK_SIZE + 1) * CHUNK_SIZE)).drop
            ((ws.drop (CHUNK_SIZE - o % CHUNK_SIZE)).length)
            = σ.drop (o + ws.length) := by
          rw [List.drop_drop, List.length_drop]
          have hidx2 : (o / CHUNK_SIZE + 1) * CHUNK_SIZE
              + (ws.length - (CHUNK_SIZE - o % CHUNK_SIZE)) = o + ws.length := by
            rw [Nat.add_mul, Nat.one_mul]
            omega
          rw [hidx2]
        have hωdrop : (overwriteAt σ o ws).drop ((o / CHUNK_SIZE + 1) * CHUNK_SIZE)
            = ws.drop (CHUNK_SIZE - o % CHUNK_SIZE) ++ σ.drop (o + ws.length) := by
          have hx : (o / CHUNK_SIZE + 1) * CHUNK_SIZE
              = o + (CHUNK_SIZE - o % CHUNK_SIZE) := by
            rw [Nat.add_mul, Nat.one_mul]
            omega
          have hωo : (overwriteAt σ o ws).drop o = ws ++ σ.drop (o + ws.length) := by
            rw [overwriteAt_drop_low σ ws o o ho (Nat.le_refl o), Nat.sub_self,
              List.take_zero, List.nil_append]
          rw [hx, ← List.drop_drop, hωo, List.drop_append_eq_append_drop,
            Nat.sub_eq_zero_of_le hWge, List.drop_zero]
        rw [hτδ, hωdrop]

/-- Evaluation of the plan-iterator step at the range's inclusive end:
the clamped sub-range is empty and the iterator stops. -/
theorem alignedStep_done (e : Nat) : alignedStep (some e) e = .done := by
  simp [alignedStep, u64sub]

/-- Evaluation of the plan-iterator step strictly below the inclusive end,
when the in-chunk start does not exceed the clamped end (the `unwrap` does
not panic). -/
theorem alignedStep_yield_gen (e pos : Nat) (hlt : pos < e)
    (hst : pos % CHUNK_SIZE ≤ min (e - pos) CHUNK_SIZE) :
    alignedStep (some e) pos = .yield (pos / CHUNK_SIZE % 2 ^ 32)
      ⟨pos % CHUNK_SIZE, min (e - pos) CHUNK_SIZE - pos % CHUNK_SIZE + 1⟩
      (pos + (min (e - pos) CHUNK_SIZE - pos % CHUNK_SIZE)) := by
  have hCpos : 0 < CHUNK_SIZE := CHUNK_SIZE_pos
  have h1 : u64sub e pos = e - pos := u64sub_of_le (Nat.le_of_lt hlt)
  have h2 : ¬ min (e - pos) CHUNK_SIZE = 0 := by omega
  have h3 : ¬ pos % CHUNK_SIZE > min (e - pos) CHUNK_SIZE := by omega
  simp only [alignedStep, Option.getD_some, h1, if_neg h2,
    ClosedByteRange.try_from_bounds, if_neg h3]

/-- The plan-iterator step at a chunk-aligned position strictly below the
end: a sub-range starting at relative offset `0`. -/
theorem alignedStep_aligned (e pos : Nat) (hpos : pos % CHUNK_SIZE = 0)
    (hlt : pos < e) :
    alignedStep (some e) pos = .yield (pos / CHUNK_SIZE % 2 ^ 32)
      ⟨0, min (e - pos) CHUNK_SIZE + 1⟩ (pos + min (e - pos) CHUNK_SIZE) := by
  rw [alignedStep_yield_gen e pos hlt (by omega), hpos]
  simp

/-- One-step unfolding of the sequentialised `stream_range` loop. -/
theorem streamGo_succ (chunks : Store) (rend : Option Nat) (fuel pos : Nat) :
    streamGo chunks rend (fuel + 1) pos =
      match alignedStep rend pos with
      | .done => .ok []
      | .panicked => .panicked
      | .yield cno c p' =>
          match honestReader chunks cno c.start (some c.endIncl) with
          | .error e => .err e
          | .ok bytes =>
              match streamGo chunks rend fuel p' with
              | .ok more => .ok (bytes ++ more)
              | other => other := rfl

/-- The stream ends (successfully, with no further reads) at the range's
inclusive end. -/
theorem streamGo_done (chunks : Store) (e fuel : Nat) :
    streamGo chunks (some e) (fuel + 1) e = .ok [] := by
  simp only [streamGo_succ, alignedStep_done]

/-- Composite step of the sequentialised stream: the plan yields a sub-range,
its read succeeds, and the rest of the stream has a known result. -/
theorem streamGo_yield_read (chunks : Store) (rend : Option Nat)
    (fuel pos cno : Nat) (c : ClosedByteRange) (p' : Nat)
    (bytes res : List Nat)
    (hstep : alignedStep rend pos = .yield cno c p')
    (hread : honestReader chunks cno c.start (some c.endIncl) = .ok bytes)
    (hrec : streamGo chunks rend fuel p' = .ok res) :
    streamGo chunks rend (fuel + 1) pos = .ok (bytes ++ res) := by
  simp only [streamGo_succ, hstep, hread, hrec]

/-- Reading from a chunk-aligned position `p` up to the trait-level inclusive
end `e` against the exact store of the content `σ`: the stream returns the
bytes `[p, e]` — except that when `e - p` is an exact multiple of
`CHUNK_SIZE`, the final byte at `e` is *not* returned: every full chunk's
closed sub-range overshoots by one byte (hidden by the remote's range
clamping) while the position only advances to the chunk boundary, so the
closing sub-range stops one byte short of `e`. -/
theorem streamGo_sliceStore (σ : List Nat) (e : Nat)
    (he : e < σ.length) (hσ : σ.length ≤ 2 ^ 52) :
    ∀ fuel p, p % CHUNK_SIZE = 0 → p ≤ e → (e - p) / CHUNK_SIZE + 2 ≤ fuel →
    streamGo (sliceStore σ) (some e) fuel p
      = .ok ((σ.drop p).take
          (if (e - p) % CHUNK_SIZE = 0 then e - p else e - p + 1)) := by
  intro fuel
  induction fuel with
  | zero => intro p _ _ hfuel; simp at hfuel
  | succ f ih =>
    intro p hp hpe hfuel
    have hCpos : 0 < CHUNK_SIZE := CHUNK_SIZE_pos
    rcases Nat.eq_or_lt_of_le hpe with heq | hlt
    · subst heq
      rw [streamGo_done, Nat.sub_self]
      simp
    · have hpC : CHUNK_SIZE ∣ p := Nat.dvd_of_mod_eq_zero hp
      have hpCC : p / CHUNK_SIZE * CHUNK_SIZE = p := Nat.div_mul_cancel hpC
      have hcno : p / CHUNK_SIZE % 2 ^ 32 = p / CHUNK_SIZE := by
        apply Nat.mod_eq_of_lt
        rw [Nat.div_lt_iff_lt_mul hCpos,
          show (2 : Nat) ^ 32 * CHUNK_SIZE = 2 ^ 52 from by rw [CHUNK_SIZE_eq]; norm_num]
        omega
      have hsl : sliceStore σ (p / CHUNK_SIZE)
          = some ((σ.drop p).take CHUNK_SIZE) := by
        simp only [sliceStore, hpCC]
        rw [if_neg (by omega)]
      have hstep := alignedStep_aligned e p hp hlt
      have hread : honestReader (sliceStore σ) (p / CHUNK_SIZE % 2 ^ 32) 0
          (some (min (e - p) CHUNK_SIZE))
          = .ok ((σ.drop p).take (min (min (e - p) CHUNK_SIZE + 1) CHUNK_SIZE)) := by
        simp only [honestReader, hcno, hsl, List.drop_zero, Nat.sub_zero,
          List.take_take]
      have hread' : honestReader (sliceStore σ) (p / CHUNK_SIZE % 2 ^ 32)
          (ClosedByteRange.mk 0 (min (e - p) CHUNK_SIZE + 1)).start
          (some (ClosedByteRange.mk 0 (min (e - p) CHUNK_SIZE + 1)).endIncl)
          = .ok ((σ.drop p).take (min (min (e - p) CHUNK_SIZE + 1) CHUNK_SIZE)) := by
        rw [show (ClosedByteRange.mk 0 (min (e - p) CHUNK_SIZE + 1)).endIncl
            = min (e - p) CHUNK_SIZE from by simp [ClosedByteRange.endIncl]]
        exact hread
      by_cases hbig : CHUNK_SIZE ≤ e - p
      · have hkC : min (e - p) CHUNK_SIZE = CHUNK_SIZE := by omega
        rw [hkC] at hstep hread'
        have hp' : (p + CHUNK_SIZE) % CHUNK_SIZE = 0 := by
          rw [Nat.add_mod_right]
          exact hp
        have hdiv1 : (e - p) / CHUNK_SIZE = (e - (p + CHUNK_SIZE)) / CHUNK_SIZE + 1 := by
          rw [show e - p = e - (p + CHUNK_SIZE) + CHUNK_SIZE from by omega,
            Nat.add_div_right _ hCpos]
        have hfe : (e - (p + CHUNK_SIZE)) / CHUNK_SIZE + 2 ≤ f := by
          rw [hdiv1] at hfuel
          exact Nat.le_of_succ_le_succ hfuel
        have hrec := ih (p + CHUNK_SIZE) hp' (by omega) hfe
        have hres := streamGo_yield_read (sliceStore σ) (some e) f p _ _ _ _ _
          hstep hread' hrec
        rw [hres]
        have hmin : min (CHUNK_SIZE + 1) CHUNK_SIZE = CHUNK_SIZE := by omega
        have hm : (e - p) % CHUNK_SIZE = (e - (p + CHUNK_SIZE)) % CHUNK_SIZE := by
          rw [show e - p = e - (p + CHUNK_SIZE) + CHUNK_SIZE from by omega,
            Nat.add_mod_right]
        have hsplit : (σ.drop p).take (min (CHUNK_SIZE + 1) CHUNK_SIZE)
            ++ (σ.drop (p + CHUNK_SIZE)).take
                (if (e - (p + CHUNK_SIZE)) % CHUNK_SIZE = 0
                 then e - (p + CHUNK_SIZE) else e - (p + CHUNK_SIZE) + 1)
            = (σ.drop p).take
                (if (e - p) % CHUNK_SIZE = 0 then e - p else e - p + 1) := by
          rw [hmin, (List.drop_drop CHUNK_SIZE p σ).symm, ← List.take_add]
          rw [show CHUNK_SIZE +
              (if (e - (p + CHUNK_SIZE)) % CHUNK_SIZE = 0
               then e - (p + CHUNK_SIZE) else e - (p + CHUNK_SIZE) + 1)
              = (if (e - p) % CHUNK_SIZE = 0 then e - p else e - p + 1) from by
            rw [hm]
            by_cases h0 : (e - (p + CHUNK_SIZE)) % CHUNK_SIZE = 0
            · rw [if_pos h0, if_pos h0]
              omega
            · rw [if_neg h0, if_neg h0]
              omega]
        rw [hsplit]
      · have hkE : min (e - p) CHUNK_SIZE = e - p := by omega
        rw [hkE, show p + (e - p) = e from by omega] at hstep
        rw [hkE] at hread'
        obtain ⟨f', rfl⟩ : ∃ f', f = f' + 1 := by
          rcases f with _ | f'
          · exact absurd (Nat.le_of_succ_le_succ hfuel) (Nat.not_succ_le_zero _)
          · exact ⟨f', rfl⟩
        have hrec : streamGo (sliceStore σ) (some e) (f' + 1) e = .ok [] :=
          streamGo_done (sliceStore σ) e f'
        have hres := streamGo_yield_read (sliceStore σ) (some e) (f' + 1) p _ _ _ _ _
          hstep hread' hrec
        rw [hres, List.append_nil]
        have hne : ¬ (e - p) % CHUNK_SIZE = 0 := by
          have h1 : (e - p) % CHUNK_SIZE = e - p := Nat.mod_eq_of_lt (by omega)
          omega
        rw [if_neg hne, Nat.min_eq_left (show e - p + 1 ≤ CHUNK_SIZE from by omega)]

/-- Function `stream_range` of the exact store of `σ`, on the closed range
`[0, M - 1]` (so `⟨0, M⟩` as start plus length): all of `σ.take M` comes back
unless `M - 1` falls on a chunk boundary, in which case the final byte is
missing. -/
theorem streamBytes_sliceStore (σ : List Nat) (M fuel : Nat)
    (hM : 1 ≤ M) (hMσ : M ≤ σ.length) (hσ : σ.length ≤ 2 ^ 52)
    (hfuel : M / CHUNK_SIZE + 2 ≤ fuel) :
    streamBytes (sliceStore σ) ⟨0, M⟩ fuel
      = .ok (σ.take (if (M - 1) % CHUNK_SIZE = 0 then M - 1 else M)) := by
  have hend : (ClosedByteRange.mk 0 M).endTrait = M - 1 := by
    show u64sub ((M + 0) % U64_MOD) 1 = M - 1
    rw [Nat.add_zero, Nat.mod_eq_of_lt (show M < U64_MOD from by
      show M < 2 ^ 64
      omega)]
    exact u64sub_of_le hM
  show streamGo (sliceStore σ) (some (ClosedByteRange.mk 0 M).endTrait) fuel
      (ClosedByteRange.mk 0 M).start = _
  rw [hend]
  have h := streamGo_sliceStore σ (M - 1) (by omega) hσ fuel 0
    (Nat.zero_mod _) (by omega)
    (by
      have h2 : (M - 1 - 0) / CHUNK_SIZE ≤ M / CHUNK_SIZE :=
        Nat.div_le_div_right (by omega)
      omega)
  rw [Nat.sub_zero, List.drop_zero] at h
  rw [show M - 1 + 1 = M from by omega] at h
  exact h

/-- One-step unfolding of the plan-collection loop. -/
theorem alignedRun_succ (rend : Option Nat) (fuel pos : Nat) :
    alignedRun rend (fuel + 1) pos =
      match alignedStep rend pos with
      | .done => ([], .finished)
      | .panicked => ([], .panicked)
      | .yield cno c p' =>
          ((cno, c) :: (alignedRun rend fuel p').1, (alignedRun rend fuel p').2) := rfl

/-- The plan iterator stops — reporting a finished plan — once the position
reaches the inclusive end. -/
theorem alignedRun_finish (e fuel : Nat) :
    alignedRun (some e) (fuel + 1) e = ([], .finished) := by
  simp only [alignedRun_succ, alignedStep_done]

/-- Invariant of the plan iterator from a chunk-aligned position `p ≤ e`: it
finishes, yields consecutive ascending chunk indices starting at
`p / CHUNK_SIZE`, every sub-range starts at in-chunk offset `0` with length
between `1` and `CHUNK_SIZE + 1`, and the half-open spans
`[index * CHUNK_SIZE + start, index * CHUNK_SIZE + start + (len - 1))`
tile `[p, e)` exactly. -/
theorem alignedRun_aligned_spec (e : Nat) (he : e < 2 ^ 52) :
    ∀ fuel p, p % CHUNK_SIZE = 0 → p ≤ e → (e - p) / CHUNK_SIZE + 2 ≤ fuel →
    ∃ items, alignedRun (some e) fuel p = (items, .finished) ∧
      items.map Prod.fst = List.range' (p / CHUNK_SIZE) items.length ∧
      (∀ pr ∈ items, pr.2.start = 0 ∧ 1 ≤ pr.2.len ∧ pr.2.len ≤ CHUNK_SIZE + 1) ∧
      (items.map fun pr =>
        List.range' (pr.1 * CHUNK_SIZE + pr.2.start) (pr.2.len - 1)).flatten
        = List.range' p (e - p) := by
  intro fuel
  induction fuel with
  | zero => intro p _ _ hfuel; simp at hfuel
  | succ f ih =>
    intro p hp hpe hfuel
    have hCpos : 0 < CHUNK_SIZE := CHUNK_SIZE_pos
    rcases Nat.eq_or_lt_of_le hpe with heq | hlt
    · subst heq
      refine ⟨[], alignedRun_finish p f, by simp, by simp, by simp⟩
    · have hpC : CHUNK_SIZE ∣ p := Nat.dvd_of_mod_eq_zero hp
      have hpCC : p / CHUNK_SIZE * CHUNK_SIZE = p := Nat.div_mul_cancel hpC
      have hcno : p / CHUNK_SIZE % 2 ^ 32 = p / CHUNK_SIZE := by
        apply Nat.mod_eq_of_lt
        rw [Nat.div_lt_iff_lt_mul hCpos,
          show (2 : Nat) ^ 32 * CHUNK_SIZE = 2 ^ 52 from by rw [CHUNK_SIZE_eq]; norm_num]
        omega
      have hstep := alignedStep_aligned e p hp hlt
      rw [hcno] at hstep
      by_cases hbig : CHUNK_SIZE ≤ e - p
      · have hkC : min (e - p) CHUNK_SIZE = CHUNK_SIZE := by omega
        rw [hkC] at hstep
        have hdiv1 : (e - p) / CHUNK_SIZE = (e - (p + CHUNK_SIZE)) / CHUNK_SIZE + 1 := by
          rw [show e - p = e - (p + CHUNK_SIZE) + CHUNK_SIZE from by omega,
            Nat.add_div_right _ hCpos]
        have hfe : (e - (p + CHUNK_SIZE)) / CHUNK_SIZE + 2 ≤ f := by
          rw [hdiv1] at hfuel
          exact Nat.le_of_succ_le_succ hfuel
        obtain ⟨items', heq', hmap', hbnd', hcov'⟩ := ih (p + CHUNK_SIZE)
          (by rw [Nat.add_mod_right]; exact hp) (by omega) hfe
        rw [show (p + CHUNK_SIZE) / CHUNK_SIZE = p / CHUNK_SIZE + 1 from
          Nat.add_div_right p hCpos] at hmap'
        refine ⟨(p / CHUNK_SIZE, ⟨0, CHUNK_SIZE + 1⟩) :: items', ?_, ?_, ?_, ?_⟩
        · simp only [alignedRun_succ, hstep, heq']
        · simp only [List.map_cons, List.length_cons, List.range'_succ, hmap']
        · intro pr hpr
          rcases List.mem_cons.mp hpr with h | h
          · subst h
            exact ⟨rfl, Nat.succ_le_succ (Nat.zero_le _), Nat.le_refl _⟩
          · exact hbnd' pr h
        · simp only [List.map_cons, List.flatten_cons]
          rw [hcov', Nat.add_zero, hpCC, Nat.add_sub_cancel,
            List.range'_append_1,
            show e - (p + CHUNK_SIZE) + CHUNK_SIZE = e - p from by omega]
      · have hkE : min (e - p) CHUNK_SIZE = e - p := by omega
        rw [hkE, show p + (e - p) = e from by omega] at hstep
        obtain ⟨f', rfl⟩ : ∃ f', f = f' + 1 := by
          rcases f with _ | f'
          · exact absurd (Nat.le_of_succ_le_succ hfuel) (Nat.not_succ_le_zero _)
          · exact ⟨f', rfl⟩
        refine ⟨[(p / CHUNK_SIZE, ⟨0, e - p + 1⟩)], ?_, ?_, ?_, ?_⟩
        · simp only [alignedRun_succ, hstep, alignedStep_done]
        · simp
        · intro pr hpr
          have h := List.mem_singleton.mp hpr
          subst h
          exact ⟨rfl, Nat.succ_le_succ (Nat.zero_le _),
            Nat.succ_le_succ (by omega)⟩
        · simp only [List.map_cons, List.map_nil, List.flatten_cons,
            List.flatten_nil, List.append_nil]
          rw [Nat.add_zero, hpCC, Nat.add_sub_cancel]

/-- The plan of `aligned_chunked_byte_range` for a closed range starting at
`s` with length `l ≥ 1`, under the proviso that the start is chunk-aligned or
the range is longer than a chunk (otherwise the first `unwrap` panics): the
iterator finishes, the chunk indices are consecutive from `s / CHUNK_SIZE`,
each sub-range lies within `[0, CHUNK_SIZE]` (its inclusive end can *equal*
`CHUNK_SIZE`), and the half-open spans tile `[s, s + l - 1)` — one byte short
of the requested closed range. -/
theorem alignedRun_spec_from_start (s l : Nat) (hlen : 1 ≤ l)
    (hprov : s % CHUNK_SIZE = 0 ∨ CHUNK_SIZE < l)
    (hbound : s + l ≤ 2 ^ 52) (fuel : Nat)
    (hfuel : l / CHUNK_SIZE + 3 ≤ fuel) :
    ∃ items, alignedRun (some (s + l - 1)) fuel s = (items, .finished) ∧
      items.map Prod.fst = List.range' (s / CHUNK_SIZE) items.length ∧
      (∀ pr ∈ items, pr.2.start < CHUNK_SIZE ∧ 1 ≤ pr.2.len ∧
        pr.2.start + pr.2.len ≤ CHUNK_SIZE + 1) ∧
      (items.map fun pr =>
        List.range' (pr.1 * CHUNK_SIZE + pr.2.start) (pr.2.len - 1)).flatten
        = List.range' s (l - 1) := by
  have hCpos : 0 < CHUNK_SIZE := CHUNK_SIZE_pos
  have he : s + l - 1 < 2 ^ 52 := by omega
  by_cases hs : s % CHUNK_SIZE = 0
  · have hfu : (s + l - 1 - s) / CHUNK_SIZE + 2 ≤ fuel := by
      have h1 : (s + l - 1 - s) / CHUNK_SIZE ≤ l / CHUNK_SIZE :=
        Nat.div_le_div_right (by omega)
      omega
    obtain ⟨items, heq, hmap, hbnd, hcov⟩ :=
      alignedRun_aligned_spec (s + l - 1) he fuel s hs (by omega) hfu
    refine ⟨items, heq, hmap, ?_, ?_⟩
    · intro pr hpr
      obtain ⟨h1, h2, h3⟩ := hbnd pr hpr
      exact ⟨by omega, h2, by omega⟩
    · rw [hcov, show s + l - 1 - s = l - 1 from by omega]
  · have hC : CHUNK_SIZE < l := hprov.resolve_left hs
    have hdm : s / CHUNK_SIZE * CHUNK_SIZE + s % CHUNK_SIZE = s := by
      rw [Nat.mul_comm]
      exact Nat.div_add_mod s CHUNK_SIZE
    have hsmod : s % CHUNK_SIZE < CHUNK_SIZE := Nat.mod_lt s hCpos
    have hlt : s < s + l - 1 := by omega
    have hkC : min (s + l - 1 - s) CHUNK_SIZE = CHUNK_SIZE := by omega
    have hstep := alignedStep_yield_gen (s + l - 1) s hlt (by omega)
    rw [hkC] at hstep
    have hcno : s / CHUNK_SIZE % 2 ^ 32 = s / CHUNK_SIZE := by
      apply Nat.mod_eq_of_lt
      rw [Nat.div_lt_iff_lt_mul hCpos,
        show (2 : Nat) ^ 32 * CHUNK_SIZE = 2 ^ 52 from by rw [CHUNK_SIZE_eq]; norm_num]
      omega
    rw [hcno] at hstep
    have hp1 : s + (CHUNK_SIZE - s % CHUNK_SIZE)
        = (s / CHUNK_SIZE + 1) * CHUNK_SIZE := by
      rw [Nat.add_mul, Nat.one_mul]
      omega
    have hp1mod : (s + (CHUNK_SIZE - s % CHUNK_SIZE)) % CHUNK_SIZE = 0 := by
      rw [hp1]
      exact Nat.mul_mod_left _ _
    have hp1div : (s + (CHUNK_SIZE - s % CHUNK_SIZE)) / CHUNK_SIZE
        = s / CHUNK_SIZE + 1 := by
      rw [hp1]
      exact Nat.mul_div_cancel _ hCpos
    have hp1le : s + (CHUNK_SIZE - s % CHUNK_SIZE) ≤ s + l - 1 := by omega
    obtain ⟨f, rfl⟩ : ∃ f, fuel = f + 1 := by
      rcases fuel with _ | f
      · exact absurd hfuel (Nat.not_succ_le_zero _)
      · exact ⟨f, rfl⟩
    have hfu : (s + l - 1 - (s + (CHUNK_SIZE - s % CHUNK_SIZE))) / CHUNK_SIZE + 2
        ≤ f := by
      have h1 : (s + l - 1 - (s + (CHUNK_SIZE - s % CHUNK_SIZE))) / CHUNK_SIZE
          ≤ l / CHUNK_SIZE := Nat.div_le_div_right (by omega)
      omega
    obtain ⟨items', heq', hmap', hbnd', hcov'⟩ :=
      alignedRun_aligned_spec (s + l - 1) he f (s + (CHUNK_SIZE - s % CHUNK_SIZE))
        hp1mod hp1le hfu
    rw [hp1div] at hmap'
    refine ⟨(s / CHUNK_SIZE, ⟨s % CHUNK_SIZE, CHUNK_SIZE - s % CHUNK_SIZE + 1⟩)
      :: items', ?_, ?_, ?_, ?_⟩
    · simp only [alignedRun_succ, hstep, heq']
    · simp only [List.map_cons, List.length_cons, List.range'_succ, hmap']
    · intro pr hpr
      rcases List.mem_cons.mp hpr with h | h
      · subst h
        exact ⟨hsmod, Nat.succ_le_succ (Nat.zero_le _),
          show s % CHUNK_SIZE + (CHUNK_SIZE - s % CHUNK_SIZE + 1)
              ≤ CHUNK_SIZE + 1 from by omega⟩
      · obtain ⟨h1, h2, h3⟩ := hbnd' pr h
        exact ⟨by omega, h2, by omega⟩
    · simp only [List.map_cons, List.flatten_cons]
      rw [hcov', Nat.add_sub_cancel, hdm, List.range'_append_1,
        show s + l - 1 - (s + (CHUNK_SIZE - s % CHUNK_SIZE))
            + (CHUNK_SIZE - s % CHUNK_SIZE) = l - 1 from by omega]

/-- Claim C1 (refuted — code bug): writing `N` bytes at offset `0` to a fresh
object and then streaming `[0, N)` does *not* always return those bytes.  At
`N = 1` (single byte `42`) the write succeeds and the metadata reports size
`1`, yet streaming the range returns *no bytes at all*: the closed range
`[0, 0]` makes the plan's very first sub-range empty, so the stream ends
immediately.  (The claimed identity does hold for the sizes whose last byte
does not fall on a chunk boundary.) -/
theorem claim_C1_roundtrip_single_byte :
    (upload_range honestB 3 (fun _ => none) (some ⟨0, 0, 0, "ct", "cc"⟩) 0 [42] 1).1
      = .ok ⟨1, 0, 1, "ct", "cc"⟩ ∧
    streamBytes
        (upload_range honestB 3 (fun _ => none) (some ⟨0, 0, 0, "ct", "cc"⟩) 0 [42] 1).2.1
        ⟨0, 1⟩ 2
      = .ok [] ∧
    ([] : List Nat) ≠ [42] :=
  ⟨rfl, rfl, by decide⟩

/-- Claim C2 (amended): read-modify-write frame property.  After writing `σA`
at offset `0` to a fresh object and then `ws` at offset `k` with
`0 < k < |σA|`, streaming `[0, max |σA| (k + |ws|))` returns `σA` with
`[k, k + |ws|)` replaced by `ws` and every byte outside that window —
including the suffix of the first write beyond it — preserved unchanged.
Amendment: the last requested byte must not fall on a chunk boundary
(`(max |σA| (k + |ws|) - 1) % CHUNK_SIZE ≠ 0`); otherwise the stream drops
that byte (see the counterexample). -/
theorem claim_C2_rmw_frame (σA ws : List Nat) (k fuel1 fuel2 fuel3 : Nat)
    (st1 st2 : Store) (b1 b2 : Nat)
    (h1 : uploadChunksLoop honestB fuel1 (fun _ => none) 0 σA = (st1, .ok b1))
    (h2 : uploadChunksLoop honestB fuel2 st1 k ws = (st2, .ok b2))
    (hk0 : 0 < k) (hkA : k < σA.length)
    (hbound : σA.length + ws.length + 3 * CHUNK_SIZE ≤ 2 ^ 52)
    (hfuel1 : σA.length + 3 ≤ fuel1) (hfuel2 : ws.length + 3 ≤ fuel2)
    (hfuel3 : max σA.length (k + ws.length) / CHUNK_SIZE + 2 ≤ fuel3)
    (hprov : ¬ (max σA.length (k + ws.length) - 1) % CHUNK_SIZE = 0) :
    streamBytes st2 ⟨0, max σA.length (k + ws.length)⟩ fuel3
      = .ok (σA.take k ++ ws ++ σA.drop (k + ws.length)) := by
  have hCpos : 0 < CHUNK_SIZE := CHUNK_SIZE_pos
  have hfresh : (fun _ => none : Store) = sliceStore [] := by
    funext i
    simp [sliceStore]
  rw [hfresh] at h1
  obtain ⟨b1', hb1⟩ := uploadChunksLoop_sliceStore [] σA 0 fuel1
    (Nat.zero_le _) hfuel1 (by omega)
  have hst1 : st1 = sliceStore (overwriteAt [] 0 σA) :=
    congrArg Prod.fst (h1.symm.trans hb1)
  rw [show overwriteAt [] 0 σA = σA from by simp [overwriteAt]] at hst1
  subst hst1
  obtain ⟨b2', hb2⟩ := uploadChunksLoop_sliceStore σA ws k fuel2
    (Nat.le_of_lt hkA) hfuel2 (by omega)
  have hst2 : st2 = sliceStore (overwriteAt σA k ws) :=
    congrArg Prod.fst (h2.symm.trans hb2)
  subst hst2
  have hωlen : (overwriteAt σA k ws).length = max σA.length (k + ws.length) :=
    overwriteAt_length σA ws k (Nat.le_of_lt hkA)
  have hread := streamBytes_sliceStore (overwriteAt σA k ws)
    (max σA.length (k + ws.length)) fuel3
    (by omega) (Nat.le_of_eq hωlen.symm) (by omega) hfuel3
  rw [hread, if_neg hprov,
    List.take_of_length_le (Nat.le_of_eq hωlen)]
  rfl

/-- Claim C2, witness: a three-byte object, one byte overwritten in the
middle, read back in full. -/
theorem claim_C2_rmw_frame_witness :
    streamBytes (fun i => if i = 0 then some [1, 9, 3]
        else if i = 0 then some [1, 2, 3] else none)
      ⟨0, max (List.length [1, 2, 3]) (1 + List.length [9])⟩ 3
      = .ok (List.take 1 [1, 2, 3] ++ [9]
          ++ List.drop (1 + List.length [9]) [1, 2, 3]) :=
  claim_C2_rmw_frame [1, 2, 3] [9] 1 10 10 3
    (fun i => if i = 0 then some [1, 2, 3] else none)
    (fun i => if i = 0 then some [1, 9, 3]
      else if i = 0 then some [1, 2, 3] else none)
    3 3 rfl rfl (by decide) (by decide) (by decide) (by decide) (by decide)
    (by decide) (by decide)

/-- Claim C2, counterexample to the unamended claim: `A = CHUNK_SIZE + 1`
bytes written at offset `0`, then `B = 1` byte at offset `k = 1`.  Reading
`[0, max A (k + B)) = [0, CHUNK_SIZE + 1)` returns only the first
`CHUNK_SIZE` bytes — the final byte, whose position falls on a chunk
boundary, is dropped — so the result is *not* the first write with `[1, 2)`
replaced by the second. -/
theorem claim_C2_counterexample :
    ∃ b1 b2,
      uploadChunksLoop honestB (CHUNK_SIZE + 4) (fun _ => none) 0
          (List.replicate (CHUNK_SIZE + 1) 7)
        = (sliceStore (List.replicate (CHUNK_SIZE + 1) 7), .ok b1) ∧
      uploadChunksLoop honestB 4
          (sliceStore (List.replicate (CHUNK_SIZE + 1) 7)) 1 [9]
        = (sliceStore (overwriteAt (List.replicate (CHUNK_SIZE + 1) 7) 1 [9]),
           .ok b2) ∧
      streamBytes
          (sliceStore (overwriteAt (List.replicate (CHUNK_SIZE + 1) 7) 1 [9]))
          ⟨0, max (List.replicate (CHUNK_SIZE + 1) 7).length (1 + List.length [9])⟩ 3
        ≠ .ok (List.take 1 (List.replicate (CHUNK_SIZE + 1) 7) ++ [9]
            ++ List.drop (1 + List.length [9]) (List.replicate (CHUNK_SIZE + 1) 7)) := by
  have hCpos : 0 < CHUNK_SIZE := CHUNK_SIZE_pos
  have hρ : (List.replicate (CHUNK_SIZE + 1) 7).length = CHUNK_SIZE + 1 :=
    List.length_replicate _ _
  have hfresh : (fun _ => none : Store) = sliceStore [] := by
    funext i
    simp [sliceStore]
  obtain ⟨b1, hb1⟩ := uploadChunksLoop_sliceStore []
    (List.replicate (CHUNK_SIZE + 1) 7) 0 (CHUNK_SIZE + 4)
    (Nat.zero_le _) (by have h := hρ; omega) (by rw [hρ]; decide)
  rw [show overwriteAt [] 0 (List.replicate (CHUNK_SIZE + 1) 7)
      = List.replicate (CHUNK_SIZE + 1) 7 from by simp [overwriteAt]] at hb1
  obtain ⟨b2, hb2⟩ := uploadChunksLoop_sliceStore
    (List.replicate (CHUNK_SIZE + 1) 7) [9] 1 4
    (by have h := hρ; omega) (by decide) (by decide)
  refine ⟨b1, b2, ?_, hb2, ?_⟩
  · rw [hfresh]
    exact hb1
  · have hωlen : (overwriteAt (List.replicate (CHUNK_SIZE + 1) 7) 1 [9]).length
        = CHUNK_SIZE + 1 := by
      rw [overwriteAt_length _ _ _ (by rw [hρ]; omega), hρ,
        show List.length [9] = 1 from rfl]
      omega
    have hM : max (List.replicate (CHUNK_SIZE + 1) 7).length (1 + List.length [9])
        = CHUNK_SIZE + 1 := by
      rw [hρ, show List.length [9] = 1 from rfl]
      omega
    rw [hM]
    have hC52 : CHUNK_SIZE + 1 ≤ 2 ^ 52 := by decide
    have hread := streamBytes_sliceStore
      (overwriteAt (List.replicate (CHUNK_SIZE + 1) 7) 1 [9]) (CHUNK_SIZE + 1) 3
      (by omega) (by omega) (by omega) (by decide)
    rw [hread, if_pos (by simp : (CHUNK_SIZE + 1 - 1) % CHUNK_SIZE = 0)]
    intro hcontra
    have hlist := Outcome.ok.inj hcontra
    have hlen := congrArg List.length hlist
    rw [List.length_take, hωlen] at hlen
    have hsplen : (List.take 1 (List.replicate (CHUNK_SIZE + 1) 7) ++ [9]
        ++ List.drop (1 + List.length [9]) (List.replicate (CHUNK_SIZE + 1) 7)).length
        = CHUNK_SIZE + 1 := by
      simp only [List.length_append, List.length_take, List.length_drop, hρ,
        show List.length [9] = 1 from rfl, List.length_cons, List.length_nil]
      omega
    rw [hsplen] at hlen
    omega

/-- Claim C3, counterexample to the unamended claim: the closed range
`[40, 50]` (start `40`, length `11`) satisfies `start ≤ end`, yet the very
first iteration computes `chunk_start = 40 > chunk_end = 10` and the
`unwrap` of `try_from_bounds` panics — no plan is produced at all, and
streaming such a range panics likewise. -/
theorem claim_C3_counterexample :
    alignedClosed ⟨40, 11⟩ 2 = ([], .panicked) ∧
    streamBytes (fun _ => none) ⟨40, 11⟩ 2 = .panicked := by decide

/-- Claim C3 (amended): for a closed byte range of length `l ≥ 1` whose
start is chunk-aligned or whose length exceeds `CHUNK_SIZE` (otherwise the
iterator panics — see the counterexample), the plan finishes; the chunk
indices are consecutive and strictly ascending from `start / CHUNK_SIZE`;
every sub-range starts below `CHUNK_SIZE` and its inclusive end is at most
`CHUNK_SIZE` (it can *equal* `CHUNK_SIZE`, one past the last in-chunk
index); and the half-open spans the reads are clamped to tile
`[start, start + l - 1)` contiguously, one byte short of the requested
closed range. -/
theorem claim_C3_plan_props (r : ClosedByteRange) (fuel : Nat)
    (hlen : 1 ≤ r.len)
    (hprov : r.start % CHUNK_SIZE = 0 ∨ CHUNK_SIZE < r.len)
    (hbound : r.start + r.len ≤ 2 ^ 52)
    (hfuel : r.len / CHUNK_SIZE + 3 ≤ fuel) :
    (alignedClosed r fuel).2 = .finished ∧
    (alignedClosed r fuel).1.map Prod.fst
      = List.range' (r.start / CHUNK_SIZE) (alignedClosed r fuel).1.length ∧
    (∀ pr ∈ (alignedClosed r fuel).1, pr.2.start < CHUNK_SIZE ∧ 1 ≤ pr.2.len ∧
      pr.2.start + pr.2.len ≤ CHUNK_SIZE + 1) ∧
    ((alignedClosed r fuel).1.map fun pr =>
        List.range' (pr.1 * CHUNK_SIZE + pr.2.start) (pr.2.len - 1)).flatten
      = List.range' r.start (r.len - 1) := by
  have hend : r.endTrait = r.start + r.len - 1 := by
    show u64sub ((r.len + r.start) % U64_MOD) 1 = r.start + r.len - 1
    rw [Nat.mod_eq_of_lt (show r.len + r.start < U64_MOD from by
      show r.len + r.start < 2 ^ 64
      omega)]
    rw [u64sub_of_le (by omega)]
    omega
  have hrun : alignedClosed r fuel
      = alignedRun (some (r.start + r.len - 1)) fuel r.start := by
    show alignedRun (some r.endTrait) fuel r.start = _
    rw [hend]
  obtain ⟨items, heq, hmap, hbnd, hcov⟩ :=
    alignedRun_spec_from_start r.start r.len hlen hprov hbound fuel hfuel
  rw [hrun, heq]
  exact ⟨rfl, hmap, hbnd, hcov⟩

/-- Claim C3, witness: the aligned five-byte range `[0, 4]`. -/
theorem claim_C3_plan_props_witness :
    (alignedClosed ⟨0, 5⟩ 3).2 = .finished ∧
    (alignedClosed ⟨0, 5⟩ 3).1.map Prod.fst
      = List.range' ((ClosedByteRange.mk 0 5).start / CHUNK_SIZE)
          (alignedClosed ⟨0, 5⟩ 3).1.length ∧
    (∀ pr ∈ (alignedClosed ⟨0, 5⟩ 3).1, pr.2.start < CHUNK_SIZE ∧ 1 ≤ pr.2.len ∧
      pr.2.start + pr.2.len ≤ CHUNK_SIZE + 1) ∧
    ((alignedClosed ⟨0, 5⟩ 3).1.map fun pr =>
        List.range' (pr.1 * CHUNK_SIZE + pr.2.start) (pr.2.len - 1)).flatten
      = List.range' (ClosedByteRange.mk 0 5).start ((ClosedByteRange.mk 0 5).len - 1) :=
  claim_C3_plan_props ⟨0, 5⟩ 3 (by decide) (Or.inl (by decide)) (by decide) (by decide)

/-- Claim C4: a successful `upload_range` returns and persists (the same)
metadata whose `size` is `max (previous size) (bytes uploaded + offset)` and
whose `updated` stamp is refreshed; in particular the stored size never
decreases. -/
theorem claim_C4_meta_size (beh : UploadBehavior) (fuel : Nat)
    (chunks st' : Store) (m0 : Meta) (offset now b : Nat) (file : List Nat)
    (h : uploadChunksLoop beh fuel chunks offset file = (st', .ok b)) :
    upload_range beh fuel chunks (some m0) offset file now
      = (.ok { m0 with size := max m0.size (b + offset), updated := now }, st',
         some { m0 with size := max m0.size (b + offset), updated := now }) ∧
    m0.size ≤ max m0.size (b + offset) := by
  refine ⟨?_, Nat.le_max_left _ _⟩
  simp only [upload_range, h]

/-- Claim C4, witness: a one-byte write into a fresh chunk store whose
previous metadata size `10` exceeds the write; the size stays `10`. -/
theorem claim_C4_meta_size_witness :
    upload_range honestB 3 (fun _ => none) (some ⟨10, 1, 2, "ct", "cc"⟩) 0 [5] 7
      = (.ok ⟨max 10 (1 + 0), 1, 7, "ct", "cc"⟩,
         fun i => if i = 0 then some [5] else none,
         some ⟨max 10 (1 + 0), 1, 7, "ct", "cc"⟩) ∧
    (10 : Nat) ≤ max 10 (1 + 0) :=
  claim_C4_meta_size honestB 3 (fun _ => none)
    (fun i => if i = 0 then some [5] else none)
    ⟨10, 1, 2, "ct", "cc"⟩ 0 7 1 [5] rfl

/-- Claim C5: when the chunk loop of `upload_range` fails with an error —
a failed chunk read or a failed chunk upload — the call returns that error
and the metadata store is returned exactly as it was: the metadata write
happens only after the whole loop has succeeded. -/
theorem claim_C5_meta_unchanged_on_error (beh : UploadBehavior) (fuel : Nat)
    (chunks st' : Store) (ms : Option Meta) (offset now : Nat)
    (file : List Nat) (e : Err)
    (h : uploadChunksLoop beh fuel chunks offset file = (st', .err e)) :
    upload_range beh fuel chunks ms offset file now = (.err e, st', ms) := by
  simp only [upload_range, h]

/-- Claim C5, witness: a remote that fails every chunk upload; the metadata
record (size `10`) survives unchanged. -/
theorem claim_C5_meta_unchanged_on_error_witness :
    upload_range failingB 3 (fun _ => none) (some ⟨10, 1, 2, "ct", "cc"⟩) 0 [5] 7
      = (.err (.other 7), fun _ => none, some ⟨10, 1, 2, "ct", "cc"⟩) :=
  claim_C5_meta_unchanged_on_error failingB 3 (fun _ => none) (fun _ => none)
    (some ⟨10, 1, 2, "ct", "cc"⟩) 0 7 [5] (.other 7) rfl

/-- Claim C6, counterexample to the unamended claim: interpreting the first
fixture as "a 2_500_000-byte payload starting at offset 40" — the closed
range `⟨40, 2_500_000⟩` — yields a *different* plan: its third sub-range is
`⟨0, 402_888⟩` (inclusive end `402_887`), which matches the fixture's third
entry `[0, 402_848)` under neither a half-open (`⟨0, 402_848⟩`) nor a
closed (`⟨0, 402_849⟩`) reading. -/
theorem claim_C6_counterexample :
    alignedClosed ⟨40, 2500000⟩ 5
      = ([(0, ⟨40, 1048537⟩), (1, ⟨0, 1048577⟩), (2, ⟨0, 402888⟩)], .finished) ∧
    ClosedByteRange.mk 0 402888 ≠ ⟨0, 402848⟩ ∧
    ClosedByteRange.mk 0 402888 ≠ ⟨0, 402849⟩ := by decide

/-- Claim C6 (amended): the repository's own fixtures.  The inputs are the
closed byte ranges `40..=2_500_000` and `69_420_000..=71_000_000` (not
payload sizes), and the resulting sub-ranges are closed, with inclusive ends
`1_048_576 = CHUNK_SIZE`, `1_048_576`, `402_848` resp. `1_048_576`,
`745_408` — exactly the reference test's expected plans. -/
theorem claim_C6_fixtures :
    alignedClosed ⟨40, 2499961⟩ 5
      = ([(0, ⟨40, 1048537⟩), (1, ⟨0, 1048577⟩), (2, ⟨0, 402849⟩)], .finished) ∧
    alignedClosed ⟨69420000, 1580001⟩ 4
      = ([(66, ⟨213984, 834593⟩), (67, ⟨0, 745409⟩)], .finished) := by decide

/-- Claim C7 (refuted — code bug): a zero-length range is *not* a no-op.
The trait-level `end()` underflows (`len + start - 1` in `u64`), so for
`⟨5, 0⟩` the plan generator never reaches its stop condition — it keeps
yielding full-chunk sub-ranges until the budget runs out — and streaming
such a range against a fresh object immediately issues a remote read and
fails with "no such file or folder" instead of returning no bytes.  The
plan for `⟨0, 0⟩` likewise never finishes. -/
theorem claim_C7_zero_length_not_noop :
    alignedClosed ⟨5, 0⟩ 3
      = ([(0, ⟨5, CHUNK_SIZE - 4⟩), (1, ⟨0, CHUNK_SIZE + 1⟩),
          (2, ⟨0, CHUNK_SIZE + 1⟩)], .fuelOut) ∧
    streamBytes (fun _ => none) ⟨5, 0⟩ 2 = .err .NoSuchFileOrFolder ∧
    (alignedClosed ⟨0, 0⟩ 2).2 = .fuelOut := by decide

/-- Claim C8 (amended): when the remote reports anything other than full
completion for a chunk upload, the chunk uploader *panics* (the `assert!` in
`upload`), aborting the whole `upload_range` call with no partial-chunk
resume — it is a Rust panic, not a returned "incomplete upload" error (see
the counterexample); on full completion it returns exactly the buffer's
length. -/
theorem claim_C8_incomplete_panics (beh : UploadBehavior) (st : Store)
    (c : Nat) (buf : List Nat) (halloc : beh.alloc c buf.length = .ok ()) :
    (beh.put c buf = .ok .Incomplete → (upload beh st c buf).2 = .panicked) ∧
    (beh.put c buf = .ok .Complete →
      upload beh st c buf
        = (fun i => if i = c then some buf else st i, .ok buf.length)) := by
  constructor
  · intro h
    simp only [upload, halloc, h]
  · intro h
    simp only [upload, halloc, h]

/-- Claim C8, witness: an incomplete verdict panics; a complete verdict
returns the buffer length. -/
theorem claim_C8_incomplete_panics_witness :
    (upload incompleteB (fun _ => none) 0 [5]).2 = .panicked ∧
    upload honestB (fun _ => none) 0 [5]
      = (fun i => if i = 0 then some [5] else none, .ok 1) :=
  ⟨(claim_C8_incomplete_panics incompleteB (fun _ => none) 0 [5] rfl).1 rfl,
   (claim_C8_incomplete_panics honestB (fun _ => none) 0 [5] rfl).2 rfl⟩

/-- Claim C8, counterexample to the unamended claim: an incomplete verdict
is a panic, not an error value — the outcome is no `err` at all, so in
particular it is not an "incomplete upload" error. -/
theorem claim_C8_counterexample :
    (upload incompleteB (fun _ => none) 0 [5]).2 = .panicked ∧
    ∀ e : Err, (upload incompleteB (fun _ => none) 0 [5]).2 ≠ .err e :=
  ⟨rfl, fun _ h => nomatch h⟩

/-- Claim C9: error handling of `get_complete_chunk`.  A "no such file or
folder" on the *head* read (`cursor > 0`) is fatal and propagates; a "no
such file or folder" on the speculative *tail* read is benign — the chunk
is completed with an empty tail; any other error on the tail read
propagates. -/
theorem claim_C9_not_found_handling (reader : Reader) (c r : Nat)
    (file hd : List Nat) (hr : r ≠ 0) (hrC : r ≤ CHUNK_SIZE) :
    (reader c 0 (some (r - 1)) = .error .NoSuchFileOrFolder →
      get_complete_chunk reader r c file = .error .NoSuchFileOrFolder) ∧
    (reader c 0 (some (r - 1)) = .ok hd → hd.length = r →
      r + min file.length (CHUNK_SIZE - r) < CHUNK_SIZE →
      (reader c (r + min file.length (CHUNK_SIZE - r)) none
          = .error .NoSuchFileOrFolder →
        get_complete_chunk reader r c file
          = .ok (some (hd ++ file.take (min file.length (CHUNK_SIZE - r))),
                 file.drop (min file.length (CHUNK_SIZE - r)))) ∧
      (∀ e2, e2 ≠ Err.NoSuchFileOrFolder →
        reader c (r + min file.length (CHUNK_SIZE - r)) none = .error e2 →
        get_complete_chunk reader r c file = .error e2)) := by
  constructor
  · intro herr
    simp only [get_complete_chunk, if_pos hr, herr]
  · intro hok hlen hshort
    have heval := gcc_eval reader c r file hd (by rw [if_pos hr]; exact hok)
      hlen hrC
    have hne3 : ¬ (hd ++ file.take (min file.length (CHUNK_SIZE - r))).isEmpty
        = true := by
      simp only [List.isEmpty_iff, ← List.length_eq_zero, List.length_append, hlen]
      omega
    constructor
    · intro htail
      rw [heval]
      simp only [hne3, if_false, Bool.false_eq_true]
      rw [if_pos hshort]
      simp only [htail]
    · intro e2 hne2 htail
      rw [heval]
      simp only [hne3, if_false, Bool.false_eq_true]
      rw [if_pos hshort]
      rw [htail]
      cases e2 with
      | NoSuchFileOrFolder => exact absurd rfl hne2
      | RangeNotSatisfiable => rfl
      | IncompleteUpload => rfl
      | other k => rfl

/-- Claim C9, witness: three concrete readers — head missing (fatal), tail
missing (benign, chunk completed without a tail), tail failing with an
opaque error (propagated). -/
theorem claim_C9_not_found_handling_witness :
    get_complete_chunk readerHeadMissing 1 0 [2] = .error .NoSuchFileOrFolder ∧
    get_complete_chunk readerTailMissing 1 0 [2]
      = .ok (some ([7] ++ [2].take (min [2].length (CHUNK_SIZE - 1))),
             [2].drop (min [2].length (CHUNK_SIZE - 1))) ∧
    get_complete_chunk readerTailBroken 1 0 [2] = .error (.other 3) := by
  refine ⟨?_, ?_, ?_⟩
  · exact (claim_C9_not_found_handling readerHeadMissing 0 1 [2] [7]
      (by decide) (by decide)).1 rfl
  · exact ((claim_C9_not_found_handling readerTailMissing 0 1 [2] [7]
      (by decide) (by decide)).2 rfl (by decide) (by decide)).1 rfl
  · exact ((claim_C9_not_found_handling readerTailBroken 0 1 [2] [7]
      (by decide) (by decide)).2 rfl (by decide) (by decide)).2
      (.other 3) (by decide) rfl

/-- Claim C10: patching with an empty patch is a pure read: the call returns
exactly the stored metadata (or its read error) and writes nothing — the
metadata store, including the `updated` stamp, is untouched. -/
theorem claim_C10_empty_patch_noop (ms : Option Meta) (now : Nat) :
    meta_patch ms ⟨none, none⟩ now = (metaGet ms, ms) := by
  cases ms with
  | none => rfl
  | some m => rfl

end JottaOSD
